import Mathlib

/-!
Verification of the natural-language specification of the
`ros-pointperfect` client (`src/point_perfect_client.py`) against a
shallow embedding of its code in Lean 4.

Embedding conventions:
* Bytes are `Nat`, byte strings are `List Nat`, text is `String`/`List Char`.
* Python `float` arithmetic is modelled over `ℚ` (exact rationals); the
  transcendental factor `cos(radians(lat))` and the threshold
  `distance * 360 / EARTH_CIRCUMFERENCE` (which involves `π`) are passed
  in as parameters, since no claim depends on their concrete values.
* Fallible Python code (exceptions such as `ValueError`, `KeyError`,
  `IndexError`, `UnboundLocalError`) is modelled with `Option`: a `none`
  result corresponds to an uncaught exception escaping the modelled code.
* The MQTT client is modelled by an explicit action trace
  (subscribe/unsubscribe/disconnect/connect) plus a small environment that
  tracks the set of live subscriptions.
-/

set_option maxRecDepth 8192

namespace PP

/-! ## Sentence framer (`NmeaParser.parse`) -/

/-- Bytes accepted inside a frame by `NmeaParser.parse`: uppercase letters
`A`-`Z` (65-90), digits `0`-`9` (48-57), and `,` (44), `.` (46), `-` (45),
`*` (42). -/
def allowedByte (b : Nat) : Bool :=
  decide ((65 ≤ b ∧ b ≤ 90) ∨ (48 ≤ b ∧ b ≤ 57) ∨ b = 44 ∨ b = 46 ∨ b = 45 ∨ b = 42)

/-- Value of one hexadecimal digit byte, as accepted by Python `int(_, 16)`. -/
def hexDigitVal (b : Nat) : Option Nat :=
  if 48 ≤ b ∧ b ≤ 57 then some (b - 48)
  else if 65 ≤ b ∧ b ≤ 70 then some (b - 55)
  else if 97 ≤ b ∧ b ≤ 102 then some (b - 87)
  else none

/-- Accumulate hexadecimal digits left to right. -/
def hexNatCore : List Nat → Nat → Option Nat
  | [], acc => some acc
  | b :: rest, acc =>
    match hexDigitVal b with
    | none => none
    | some d => hexNatCore rest (acc * 16 + d)

/-- Unsigned hexadecimal number: at least one digit required. -/
def hexNat : List Nat → Option Nat
  | [] => none
  | l => hexNatCore l 0

/-- Python `int(bytes, 16)` restricted to the byte alphabet reachable in a
frame: an optional sign (`-` = 45, `+` = 43) followed by hex digits.
`none` models a `ValueError`. -/
def pyIntHexBytes : List Nat → Option Int
  | 45 :: rest => (hexNat rest).map (fun n => -(n : Int))
  | 43 :: rest => (hexNat rest).map (fun n => (n : Int))
  | l => (hexNat l).map (fun n => (n : Int))

/-- Running checksum of `NmeaParser.parse`: exclusive-or of all bytes. -/
def xorChecksum (l : List Nat) : Nat := l.foldl Nat.xor 0

/-- Indices (from `i` upward) of the registered patterns matching `buf`,
in registration order; models the `for regexp in self.callbacks.keys()`
iteration (insertion-ordered in Python). -/
def matchingIdxFrom (buf : List Nat) : Nat → List (List Nat → Bool) → List Nat
  | _, [] => []
  | i, c :: rest => (if c buf then [i] else []) ++ matchingIdxFrom buf (i + 1) rest

/-- Indices of all registered patterns matching `buf`, in order. -/
def matchingIdx (cbs : List (List Nat → Bool)) (buf : List Nat) : List Nat :=
  matchingIdxFrom buf 0 cbs

/-- State of `NmeaParser`: the in-progress buffer (`self.buffer`, `none`
when no frame is being accumulated) plus the trace of dispatched frames,
oldest first, each recorded as (callback index, frame bytes). -/
structure NmeaState where
  buffer : Option (List Nat)
  out : List (Nat × List Nat)

/-- Initial `NmeaParser` state: `self.buffer = None`, nothing dispatched. -/
def initNmea : NmeaState := ⟨none, []⟩

/-- One byte of `NmeaParser.parse`, faithful to the source:
`$` (36) starts a new buffer; inside a buffer an allowed byte is appended;
CR (13) triggers the `*HH` checksum check and, on success, dispatch to every
matching registered callback; any other byte silently drops the buffer. -/
def parseByte (cbs : List (List Nat → Bool)) (st : NmeaState) (b : Nat) : NmeaState :=
  if b = 36 then { st with buffer := some [36] }
  else
    match st.buffer with
    | none => st
    | some buf =>
      if allowedByte b then { st with buffer := some (buf ++ [b]) }
      else if b = 13 then
        if 3 < buf.length ∧ buf.getD (buf.length - 3) 0 = 42 then
          if ((xorChecksum ((buf.drop 1).take (buf.length - 4)) : Nat) : Int) =
              (pyIntHexBytes (buf.drop (buf.length - 2))).getD (-1) then
            { buffer := none, out := st.out ++ (matchingIdx cbs buf).map (fun i => (i, buf)) }
          else { st with buffer := none }
        else { st with buffer := none }
      else { st with buffer := none }

/-- `NmeaParser.parse(data)`: fold `parseByte` over the byte stream. -/
def parseBytes (cbs : List (List Nat → Bool)) (st : NmeaState) (data : List Nat) : NmeaState :=
  data.foldl (parseByte cbs) st

/-- A frame passes the checksum gate of `NmeaParser.parse`: it is long
enough, has `*` in the third-to-last position, its two-digit checksum field
parses as hex, and the parsed value equals the exclusive-or of all bytes
strictly between the `$` start delimiter and the `*` marker. -/
def checksumOk (frame : List Nat) : Prop :=
  3 < frame.length ∧ frame.getD (frame.length - 3) 0 = 42 ∧
    pyIntHexBytes (frame.drop (frame.length - 2)) =
      some ((xorChecksum ((frame.drop 1).take (frame.length - 4)) : Nat) : Int)

instance (frame : List Nat) : Decidable (checksumOk frame) := by
  unfold checksumOk; infer_instance

/-- Soundness of one dispatch record: checksum-valid frame, in-range callback
index, the pattern matched, the frame starts with `$` (36) and contains no
terminator (13). -/
def dispatchOk (cbs : List (List Nat → Bool)) (e : Nat × List Nat) : Prop :=
  checksumOk e.2 ∧ e.1 < cbs.length ∧ (cbs.getD e.1 (fun _ => false)) e.2 = true ∧
    e.2.head? = some 36 ∧ 13 ∉ e.2

/-- Well-formedness of an in-progress buffer: it starts with the `$` byte and
its remaining bytes all come from the allowed alphabet. -/
def bufWF (st : NmeaState) : Prop :=
  ∀ buf, st.buffer = some buf → buf.head? = some 36 ∧ ∀ b ∈ buf.tail, allowedByte b = true

theorem matchingIdxFrom_mem {buf : List Nat} {cbs : List (List Nat → Bool)}
    {i j : Nat} (h : j ∈ matchingIdxFrom buf i cbs) :
    i ≤ j ∧ j - i < cbs.length ∧ (cbs.getD (j - i) (fun _ => false)) buf = true := by
  induction cbs generalizing i with
  | nil => simp [matchingIdxFrom] at h
  | cons c rest ih =>
    simp only [matchingIdxFrom, List.mem_append] at h
    rcases h with h | h
    · have hj : j = i := by
        by_cases hc : c buf
        · simpa [hc] using h
        · simp [hc] at h
      subst hj
      have hc : c buf = true := by
        by_cases hc : c buf
        · exact hc
        · simp [hc] at h
      simp [hc]
    · obtain ⟨h1, h2, h3⟩ := ih h
      have hlen : (c :: rest).length = rest.length + 1 := List.length_cons c rest
      refine ⟨by omega, by omega, ?_⟩
      have hji : j - i = (j - (i + 1)) + 1 := by omega
      rw [hji]
      simpa using h3

theorem matchingIdxFrom_complete (buf : List Nat) (cbs : List (List Nat → Bool))
    (i k : Nat) (hk : k < cbs.length) (hm : (cbs.getD k (fun _ => false)) buf = true) :
    (i + k) ∈ matchingIdxFrom buf i cbs := by
  induction cbs generalizing i k with
  | nil => simp at hk
  | cons c rest ih =>
    cases k with
    | zero =>
      simp only [List.getD, List.getElem?_cons_zero] at hm
      simp only [matchingIdxFrom, List.mem_append]
      left
      simp_all [Option.getD]
    | succ k' =>
      have hk' : k' < rest.length := by simpa [List.length_cons] using hk
      have hm' : (rest.getD k' (fun _ => false)) buf = true := by
        simpa [List.getD] using hm
      have := ih (i + 1) k' hk' hm'
      simp only [matchingIdxFrom, List.mem_append]
      right
      have : i + (k' + 1) = (i + 1) + k' := by omega
      rw [this]
      exact ih (i + 1) k' hk' hm'

/-- Single-step soundness: `parseByte` preserves buffer well-formedness and
dispatch soundness of the output trace. -/
theorem parseByte_sound (cbs : List (List Nat → Bool)) (st : NmeaState) (b : Nat)
    (hbuf : bufWF st) (hout : ∀ e ∈ st.out, dispatchOk cbs e) :
    bufWF (parseByte cbs st b) ∧ ∀ e ∈ (parseByte cbs st b).out, dispatchOk cbs e := by
  unfold parseByte
  by_cases hb36 : b = 36
  · subst hb36
    rw [if_pos rfl]
    refine ⟨fun buf hbuf' => ?_, hout⟩
    have hb : some [36] = some buf := hbuf'
    cases Option.some.inj hb
    simp [allowedByte]
  · rw [if_neg hb36]
    cases hst : st.buffer with
    | none => exact ⟨fun buf h => hbuf buf (hst ▸ h), hout⟩
    | some buf =>
      have hwf := hbuf buf hst
      dsimp only
      by_cases hall : allowedByte b = true
      · rw [if_pos hall]
        refine ⟨fun buf' h' => ?_, hout⟩
        have hb : some (buf ++ [b]) = some buf' := h'
        cases Option.some.inj hb
        obtain ⟨h1, h2⟩ := hwf
        cases buf with
        | nil => simp at h1
        | cons x xs =>
          refine ⟨by simpa using h1, ?_⟩
          intro c hc
          simp only [List.cons_append, List.tail_cons, List.mem_append] at hc
          rcases hc with hc | hc
          · exact h2 c (by simpa using hc)
          · simp only [List.mem_singleton] at hc
            subst hc; exact hall
      · rw [if_neg hall]
        by_cases hb13 : b = 13
        · simp only [if_pos hb13]
          by_cases hlen : 3 < buf.length ∧ buf.getD (buf.length - 3) 0 = 42
          · rw [if_pos hlen]
            by_cases hchk : ((xorChecksum ((buf.drop 1).take (buf.length - 4)) : Nat) : Int) =
                (pyIntHexBytes (buf.drop (buf.length - 2))).getD (-1)
            · rw [if_pos hchk]
              refine ⟨fun buf' h' => by simp at h', ?_⟩
              intro e he
              simp only [List.mem_append] at he
              rcases he with he | he
              · exact hout e he
              · simp only [List.mem_map] at he
                obtain ⟨i, hi, hei⟩ := he
                obtain ⟨_, hlt, hmatch⟩ := matchingIdxFrom_mem hi
                subst hei
                have hrecv : pyIntHexBytes (buf.drop (buf.length - 2)) =
                    some ((xorChecksum ((buf.drop 1).take (buf.length - 4)) : Nat) : Int) := by
                  cases hpy : pyIntHexBytes (buf.drop (buf.length - 2)) with
                  | none =>
                    rw [hpy] at hchk
                    simp only [Option.getD_none] at hchk
                    omega
                  | some v =>
                    rw [hpy] at hchk
                    simp only [Option.getD_some] at hchk
                    rw [hchk]
                have hhead : buf.head? = some 36 := hwf.1
                refine ⟨⟨hlen.1, hlen.2, hrecv⟩, by simpa using hlt, by simpa using hmatch,
                  hhead, ?_⟩
                intro hmem
                cases buf with
                | nil => simp at hhead
                | cons x xs =>
                  simp only [List.head?_cons, Option.some.injEq] at hhead
                  simp only [List.mem_cons] at hmem
                  rcases hmem with hmem | hmem
                  · omega
                  · have h13 := hwf.2 13 (by simpa using hmem)
                    simp [allowedByte] at h13
            · rw [if_neg hchk]
              exact ⟨fun buf' h' => by simp at h', hout⟩
          · rw [if_neg hlen]
            exact ⟨fun buf' h' => by simp at h', hout⟩
        · simp only [if_neg hb13]
          exact ⟨fun buf' h' => by simp at h', hout⟩

/-- Fold-level soundness of the framer over an arbitrary byte stream. -/
theorem parseBytes_sound (cbs : List (List Nat → Bool)) (data : List Nat) (st : NmeaState)
    (hbuf : bufWF st) (hout : ∀ e ∈ st.out, dispatchOk cbs e) :
    bufWF (parseBytes cbs st data) ∧ ∀ e ∈ (parseBytes cbs st data).out, dispatchOk cbs e := by
  induction data generalizing st with
  | nil => exact ⟨hbuf, hout⟩
  | cons b rest ih =>
    have hstep := parseByte_sound cbs st b hbuf hout
    exact ih (parseByte cbs st b) hstep.1 hstep.2

/-- The initial parser state is trivially well-formed. -/
theorem initNmea_sound (cbs : List (List Nat → Bool)) :
    bufWF initNmea ∧ ∀ e ∈ initNmea.out, dispatchOk cbs e :=
  ⟨fun _ h => by simp [initNmea] at h, fun _ h => by simp [initNmea] at h⟩

/-- Every dispatched frame, from the pristine parser over any byte stream,
is a sound dispatch. -/
theorem parse_dispatch_sound (cbs : List (List Nat → Bool)) (data : List Nat)
    (e : Nat × List Nat) (he : e ∈ (parseBytes cbs initNmea data).out) : dispatchOk cbs e :=
  (parseBytes_sound cbs data initNmea (initNmea_sound cbs).1 (initNmea_sound cbs).2).2 e he

/-- On the terminator byte with an in-progress buffer that passes the
`*HH` checksum gate, `parseByte` appends one dispatch record for EVERY
matching registered pattern, in registration order (there is no break after
the first match in the source loop). -/
theorem parseByte_emits (cbs : List (List Nat → Bool)) (st : NmeaState) (buf : List Nat)
    (hst : st.buffer = some buf)
    (hlen : 3 < buf.length ∧ buf.getD (buf.length - 3) 0 = 42)
    (hchk : ((xorChecksum ((buf.drop 1).take (buf.length - 4)) : Nat) : Int) =
      (pyIntHexBytes (buf.drop (buf.length - 2))).getD (-1)) :
    (parseByte cbs st 13).out = st.out ++ (matchingIdx cbs buf).map (fun i => (i, buf)) := by
  unfold parseByte
  rw [if_neg (by omega : ¬(13 : Nat) = 36), hst]
  dsimp only
  rw [if_neg (by simp [allowedByte]), if_pos rfl, if_pos hlen, if_pos hchk]

/-- Completeness of the match scan: every registered pattern that matches the
frame gets its handler invoked (index present in `matchingIdx`). -/
theorem matchingIdx_complete (cbs : List (List Nat → Bool)) (buf : List Nat) (i : Nat)
    (hi : i < cbs.length) (hm : (cbs.getD i (fun _ => false)) buf = true) :
    i ∈ matchingIdx cbs buf := by
  have h := matchingIdxFrom_complete buf cbs 0 i hi hm
  simpa [matchingIdx] using h

/-- Pattern to match a GGA sentence, the byte-level counterpart of the
registered regular expression `^\$G[A-Z]GGA,`. -/
def ggaPattern : List Nat → Bool
  | 36 :: 71 :: c :: 71 :: 71 :: 65 :: 44 :: _ => decide (65 ≤ c ∧ c ≤ 90)
  | _ => false

/-- The worked GGA sentence of the specification. -/
def demoSentence : String :=
  "$GPGGA,123519,4807.038,N,01131.000,E,1,08,0.9,545.4,M,46.9,M,,*47"

/-- Its frame bytes (as buffered by the framer: `$` kept, no terminator). -/
def demoFrame : List Nat := demoSentence.data.map Char.toNat

/-- The byte stream feeding the framer: the frame followed by CR. -/
def demoBytes : List Nat := demoFrame ++ [13]

/-- C1: for every byte stream fed to the sentence framer, a frame whose
two-digit hex checksum field does not equal the exclusive-or of all bytes
between `$` and the `*` marker is never dispatched to any registered
handler: every dispatched frame satisfies `checksumOk`, which demands that
the checksum field parses (so a field that is not valid hex, which the code
turns into the impossible value `-1`, can never dispatch) and equals the
computed exclusive-or.  The parser is a total function, so no byte stream
can crash it. -/
theorem chksum_mismatch_never_dispatched (cbs : List (List Nat → Bool)) (data : List Nat)
    (e : Nat × List Nat) (he : e ∈ (parseBytes cbs initNmea data).out) : checksumOk e.2 :=
  (parse_dispatch_sound cbs data e he).1

/-- Witness for C1 on the worked GGA sentence with the GGA pattern. -/
theorem chksum_mismatch_never_dispatched_witness :
    (0, demoFrame) ∈ (parseBytes [ggaPattern] initNmea demoBytes).out ∧ checksumOk demoFrame :=
  ⟨by decide, chksum_mismatch_never_dispatched [ggaPattern] demoBytes (0, demoFrame) (by decide)⟩

/-- C8 (counterexample to the claim as stated): the scan over registered
patterns does NOT stop at the first match — the source loop has no `break` —
so with two registered patterns that both match, BOTH handlers run for the
single frame contained in `demoBytes`: the dispatch trace carries callback
indices `[0, 1]`, i.e. two handler invocations for one frame, refuting
"at most one handler runs per frame". -/
theorem first_match_only_cex :
    ((parseBytes [fun _ => true, fun _ => true] initNmea demoBytes).out.map Prod.fst)
      = [0, 1] := by decide

/-- C8 (amended): for every checksum-valid frame the registered patterns are
tested in stable registration order and the handler of EVERY matching
pattern is invoked (scanning does not stop after the first match, so several
handlers may run per frame); each invoked handler receives the frame text
with the start delimiter `$` present and the terminator absent.
Conjunct 1: every dispatch record names a registered pattern that matched,
and its frame starts with `$` (byte 36) and contains no terminator (13).
Conjunct 2: on dispatch the trace is extended by exactly the matching
pattern indices, in order.  Conjunct 3: every matching pattern is among
them. -/
theorem all_matching_handlers :
    (∀ cbs data e, e ∈ (parseBytes cbs initNmea data).out →
        e.1 < cbs.length ∧ (cbs.getD e.1 (fun _ => false)) e.2 = true ∧
        e.2.head? = some 36 ∧ 13 ∉ e.2) ∧
    (∀ cbs st buf, st.buffer = some buf →
      (3 < buf.length ∧ buf.getD (buf.length - 3) 0 = 42) →
      ((xorChecksum ((buf.drop 1).take (buf.length - 4)) : Nat) : Int) =
        (pyIntHexBytes (buf.drop (buf.length - 2))).getD (-1) →
      (parseByte cbs st 13).out = st.out ++ (matchingIdx cbs buf).map (fun i => (i, buf))) ∧
    (∀ cbs buf i, i < List.length cbs → (cbs.getD i (fun _ => false)) buf = true →
      i ∈ matchingIdx cbs buf) := by
  refine ⟨?_, parseByte_emits, matchingIdx_complete⟩
  intro cbs data e he
  have h := parse_dispatch_sound cbs data e he
  exact ⟨h.2.1, h.2.2.1, h.2.2.2.1, h.2.2.2.2⟩

/-- Witness for C8 (amended) on the worked GGA sentence. -/
theorem all_matching_handlers_witness :
    ggaPattern demoFrame = true ∧ demoFrame.head? = some 36 ∧ 13 ∉ demoFrame := by
  have h := all_matching_handlers.1 [ggaPattern] demoBytes (0, demoFrame) (by decide)
  exact ⟨by simpa using h.2.1, h.2.2.1, h.2.2.2⟩

/-! ## Fix report decoder (`handle_nmea_gga`, field-extraction part) -/

/-- Value of a decimal digit character. -/
def digitVal (c : Char) : Option Nat :=
  if 48 ≤ c.toNat ∧ c.toNat ≤ 57 then some (c.toNat - 48) else none

/-- Accumulate decimal digits left to right; `none` on a non-digit. -/
def decNatCore : List Char → Nat → Option Nat
  | [], acc => some acc
  | c :: rest, acc =>
    match digitVal c with
    | none => none
    | some d => decNatCore rest (acc * 10 + d)

/-- Unsigned decimal number: at least one digit required. -/
def decNat : List Char → Option Nat
  | [] => none
  | l => decNatCore l 0

/-- Python `int(str)` on the character alphabet reachable in a dispatched
sentence: optional sign, then decimal digits.  `none` models `ValueError`. -/
def pyIntChars : List Char → Option Int
  | '-' :: rest => (decNat rest).map (fun n => -(n : Int))
  | '+' :: rest => (decNat rest).map (fun n => (n : Int))
  | l => (decNat l).map (fun n => (n : Int))

/-- Split a character list at the first `.` (decimal point). -/
def splitDot : List Char → List Char × Option (List Char)
  | [] => ([], none)
  | '.' :: rest => ([], some rest)
  | c :: rest =>
    match splitDot rest with
    | (a, b) => (c :: a, b)

/-- Unsigned part of a Python `float` literal: integer part, fraction value
and number of fraction digits.  `none` models `ValueError`. -/
def pyFloatMagParts (l : List Char) : Option (Nat × Nat × Nat) :=
  match splitDot l with
  | (ip, none) => if ip = [] then none else (decNatCore ip 0).map (fun a => (a, 0, 0))
  | (ip, some fp) =>
    if ip = [] ∧ fp = [] then none
    else
      match decNatCore ip 0, decNatCore fp 0 with
      | some a, some b => some (a, b, fp.length)
      | _, _ => none

/-- Parsed parts of a Python `float` literal: sign, integer part, fraction
value and number of fraction digits.  `none` models `ValueError`.
(Within the framer's character alphabet only sign/digits/point occur in
practice; exponent forms are not modelled.) -/
def pyFloatParts (l : List Char) : Option (Int × Nat × Nat × Nat) :=
  match l with
  | '-' :: rest => (pyFloatMagParts rest).map (fun p => (-1, p))
  | '+' :: rest => (pyFloatMagParts rest).map (fun p => (1, p))
  | _ => (pyFloatMagParts l).map (fun p => (1, p))

/-- The exact rational value of parsed float parts. -/
def ratOfParts (p : Int × Nat × Nat × Nat) : ℚ :=
  (p.1 : ℚ) * ((p.2.1 : ℚ) + (p.2.2.1 : ℚ) / (10 : ℚ) ^ p.2.2.2)

/-- Python `float(str)`, modelled exactly over `ℚ`. -/
def pyFloatChars (l : List Char) : Option ℚ := (pyFloatParts l).map ratOfParts

/-- Python `str.split(',')`. -/
def splitComma : List Char → List (List Char)
  | [] => [[]]
  | c :: rest =>
    if c = ',' then [] :: splitComma rest
    else
      match splitComma rest with
      | [] => [[c]]
      | f :: fs => (c :: f) :: fs

/-- `sentence.split(',')` as in `handle_nmea_gga`. -/
def fieldsOf (s : String) : List (List Char) := splitComma s.data

/-- Python `int(float)`: truncation toward zero. -/
def pyTrunc (q : ℚ) : Int := if q < 0 then ⌈q⌉ else ⌊q⌋

/-- Python float `%` with a positive divisor: floored remainder. -/
def pyMod (a m : ℚ) : ℚ := a - m * (⌊a / m⌋ : ℤ)

/-- `int(raw / 100) + (raw % 100) / 60`, the DDMM.MMMM conversion of
`handle_nmea_gga`. -/
def ddmmToDeg (raw : ℚ) : ℚ := (pyTrunc (raw / 100) : ℚ) + pyMod raw 100 / 60

/-- The field-extraction part of `handle_nmea_gga` (source lines 261-270):
`quality = int(fields[6] or 0)`, latitude from `fields[2]`/`fields[3]`,
longitude from `fields[4]`/`fields[5]`.  `none` models an uncaught
exception (`IndexError` on a missing field, `ValueError` on an unparseable
non-empty numeric field). -/
def decodeGga (sentence : String) : Option (Int × ℚ × ℚ) :=
  match (fieldsOf sentence).get? 6, (fieldsOf sentence).get? 2, (fieldsOf sentence).get? 3,
      (fieldsOf sentence).get? 4, (fieldsOf sentence).get? 5 with
  | some f6, some f2, some f3, some f4, some f5 =>
    (if f6 = [] then some (0 : Int) else pyIntChars f6).bind fun quality =>
      (if f2 = [] then some (0 : ℚ) else pyFloatChars f2).bind fun f_lat =>
        (if f4 = [] then some (0 : ℚ) else pyFloatChars f4).bind fun f_lon =>
          some (quality,
            (if f3 = ['S'] then -(ddmmToDeg f_lat) else ddmmToDeg f_lat),
            (if f5 = ['W'] then -(ddmmToDeg f_lon) else ddmmToDeg f_lon))
  | _, _, _, _, _ => none

/-- On nonnegative raw values (which is what a `DDMM.MMMM` digit field
yields) Python truncation coincides with flooring. -/
theorem ddmmToDeg_floor (raw : ℚ) (h : 0 ≤ raw) :
    ddmmToDeg raw = ((⌊raw / 100⌋ : ℤ) : ℚ) + pyMod raw 100 / 60 := by
  unfold ddmmToDeg pyTrunc
  rw [if_neg (not_lt.mpr (by positivity))]

/-- C7: the decoder extracts the fix quality as an integer (empty treated as
zero — see the `f6 = []` branch of `decodeGga`), and converts the
latitude/longitude `DDMM.MMMM` fields to decimal degrees via
`degrees = floor(raw/100) + (raw mod 100)/60` (conjunct 1; nonnegativity is
what the all-digit `DDMM.MMMM` format guarantees), with the sign flipped
exactly when the hemisphere field is `S` resp. `W` (conjuncts 2 and 3); in
particular the worked sentence decodes to quality 1, latitude exactly
48.1173 and longitude 691/60 ≈ 11.5167 (conjunct 4). -/
theorem gga_decode_spec :
    (∀ raw : ℚ, 0 ≤ raw → ddmmToDeg raw = ((⌊raw / 100⌋ : ℤ) : ℚ) + pyMod raw 100 / 60) ∧
    (∀ s q lat lon f2 f3 raw, decodeGga s = some (q, lat, lon) →
      (fieldsOf s).get? 2 = some f2 → (fieldsOf s).get? 3 = some f3 →
      f2 ≠ [] → pyFloatChars f2 = some raw →
      lat = if f3 = ['S'] then -(ddmmToDeg raw) else ddmmToDeg raw) ∧
    (∀ s q lat lon f4 f5 raw, decodeGga s = some (q, lat, lon) →
      (fieldsOf s).get? 4 = some f4 → (fieldsOf s).get? 5 = some f5 →
      f4 ≠ [] → pyFloatChars f4 = some raw →
      lon = if f5 = ['W'] then -(ddmmToDeg raw) else ddmmToDeg raw) ∧
    (decodeGga demoSentence = some (1, 481173 / 10000, 691 / 60) ∧
      |(691 : ℚ) / 60 - 115167 / 10000| < 1 / 10000) := by
  refine ⟨ddmmToDeg_floor, ?_, ?_, ?_, ?_⟩
  · intro s q lat lon f2 f3 raw hdec h2 h3 hne hraw
    unfold decodeGga at hdec
    rw [h2, h3] at hdec
    cases hg6 : (fieldsOf s).get? 6 with
    | none => rw [hg6] at hdec; cases hdec
    | some f6 =>
      cases hg4 : (fieldsOf s).get? 4 with
      | none => rw [hg6, hg4] at hdec; cases hdec
      | some f4 =>
        cases hg5 : (fieldsOf s).get? 5 with
        | none => rw [hg6, hg4, hg5] at hdec; cases hdec
        | some f5 =>
          rw [hg6, hg4, hg5] at hdec
          dsimp only at hdec
          rw [if_neg hne, hraw] at hdec
          simp only [Option.bind_eq_some, Option.some.injEq, Prod.mk.injEq] at hdec
          obtain ⟨qv, hqv, fl, hfl, fo, hfo, hq, hlat, hlon⟩ := hdec
          rw [← hlat, hfl]
  · intro s q lat lon f4 f5 raw hdec h4 h5 hne hraw
    unfold decodeGga at hdec
    rw [h4, h5] at hdec
    cases hg6 : (fieldsOf s).get? 6 with
    | none => rw [hg6] at hdec; cases hdec
    | some f6 =>
      cases hg2 : (fieldsOf s).get? 2 with
      | none => rw [hg6, hg2] at hdec; cases hdec
      | some f2 =>
        cases hg3 : (fieldsOf s).get? 3 with
        | none => rw [hg6, hg2, hg3] at hdec; cases hdec
        | some f3 =>
          rw [hg6, hg2, hg3] at hdec
          dsimp only at hdec
          rw [if_neg hne, hraw] at hdec
          simp only [Option.bind_eq_some, Option.some.injEq, Prod.mk.injEq] at hdec
          obtain ⟨qv, hqv, fl, hfl, fo, hfo, hq, hlat, hlon⟩ := hdec
          rw [← hlon, hfo]
  · have h6 : (fieldsOf demoSentence).get? 6 = some ['1'] := by decide
    have h2 : (fieldsOf demoSentence).get? 2 = some ['4','8','0','7','.','0','3','8'] := by
      decide
    have h3 : (fieldsOf demoSentence).get? 3 = some ['N'] := by decide
    have h4 : (fieldsOf demoSentence).get? 4 = some ['0','1','1','3','1','.','0','0','0'] := by
      decide
    have h5 : (fieldsOf demoSentence).get? 5 = some ['E'] := by decide
    have hq : pyIntChars ['1'] = some 1 := by decide
    have hlatp : pyFloatParts ['4','8','0','7','.','0','3','8'] = some (1, 4807, 38, 3) := by
      decide
    have hlonp : pyFloatParts ['0','1','1','3','1','.','0','0','0'] = some (1, 1131, 0, 3) := by
      decide
    unfold decodeGga
    rw [h6, h2, h3, h4, h5]
    dsimp only
    rw [if_neg (by decide : ¬(['1'] : List Char) = []),
      if_neg (by decide : ¬(['4','8','0','7','.','0','3','8'] : List Char) = []),
      if_neg (by decide : ¬(['0','1','1','3','1','.','0','0','0'] : List Char) = []), hq]
    simp only [pyFloatChars, hlatp, hlonp, Option.map_some, Option.map_some',
      Option.some_bind,
      if_neg (by decide : ¬(['N'] : List Char) = ['S']),
      if_neg (by decide : ¬(['E'] : List Char) = ['W']),
      Option.some.injEq, Prod.mk.injEq, true_and, ratOfParts]
    constructor
    · norm_num [ddmmToDeg, pyTrunc, pyMod]
    · norm_num [ddmmToDeg, pyTrunc, pyMod]
  · have hval : (691 : ℚ) / 60 - 115167 / 10000 = -(1 / 30000) := by norm_num
    rw [hval, abs_neg, abs_of_pos (by norm_num : (0 : ℚ) < 1 / 30000)]
    norm_num

/-- Witness for C7: the latitude of the worked sentence is exactly the
hemisphere-adjusted conversion of its raw `DDMM.MMMM` field. -/
theorem gga_decode_spec_witness :
    (481173 : ℚ) / 10000 =
      (if (['N'] : List Char) = ['S'] then -(ddmmToDeg (ratOfParts (1, 4807, 38, 3)))
        else ddmmToDeg (ratOfParts (1, 4807, 38, 3))) := by
  have hparts : pyFloatParts ['4','8','0','7','.','0','3','8'] = some (1, 4807, 38, 3) := by
    decide
  exact gga_decode_spec.2.1 demoSentence 1 (481173 / 10000) (691 / 60)
    ['4','8','0','7','.','0','3','8'] ['N'] (ratOfParts (1, 4807, 38, 3))
    gga_decode_spec.2.2.2.1 (by decide) (by decide) (by decide)
    (by rw [pyFloatChars, hparts, Option.map_some'])

/-- C9 (counterexample to the claim as stated): the claim says decoding
always succeeds structurally and no field-decode error is ever raised, but
`int('A')` raises `ValueError` in Python: for the checksum-reachable GGA
sentence whose quality field is the non-empty unparseable text `A`, the
decoder errors out (modelled by `none`). -/
theorem decode_always_succeeds_cex : decodeGga "$GPGGA,,,,,,A" = none := by decide

/-- C9 (amended): EMPTY numeric subfields (quality, latitude, longitude) are
treated as zero and decoding succeeds; but a non-empty unparseable numeric
subfield, or a sentence with fewer than seven comma-separated fields, makes
the decoder raise an uncaught exception instead of yielding a zero value. -/
theorem empty_fields_decode_zero (s : String)
    (h2 : (fieldsOf s).get? 2 = some []) (h4 : (fieldsOf s).get? 4 = some [])
    (h6 : (fieldsOf s).get? 6 = some []) : decodeGga s = some (0, 0, 0) := by
  have hlen : 6 < (fieldsOf s).length := by
    by_contra hcon
    rw [List.get?_eq_none.mpr (by omega)] at h6
    cases h6
  cases hg3 : (fieldsOf s).get? 3 with
  | none =>
    have := List.get?_eq_none.mp hg3
    omega
  | some f3 =>
    cases hg5 : (fieldsOf s).get? 5 with
    | none =>
      have := List.get?_eq_none.mp hg5
      omega
    | some f5 =>
      unfold decodeGga
      rw [h6, h2, hg3, h4, hg5]
      dsimp only
      have hz : ddmmToDeg 0 = 0 := by norm_num [ddmmToDeg, pyTrunc, pyMod]
      simp [hz]

/-- Witness for C9 (amended): an all-empty GGA field list decodes to
quality 0 at position (0, 0). -/
theorem empty_fields_decode_zero_witness : decodeGga "$GPGGA,,,,,," = some (0, 0, 0) :=
  empty_fields_decode_zero "$GPGGA,,,,,," (by decide) (by decide) (by decide)

/-! ## Tile topic naming (`get_tile_topic`) -/

/-- Python `round()`: round half to even, modelled on exact rationals. -/
def pyRound (q : ℚ) : ℤ :=
  if q - ⌊q⌋ < 1 / 2 then ⌊q⌋
  else if 1 / 2 < q - ⌊q⌋ then ⌊q⌋ + 1
  else if 2 ∣ ⌊q⌋ then ⌊q⌋ else ⌊q⌋ + 1

/-- The tile edge size `[10.0, 5.0, 2.5][self.tile_level]`. -/
def tileDelta (lvl : Fin 3) : ℚ :=
  if lvl = 0 then 10 else if lvl = 1 then 5 else 5 / 2

/-- The components interpolated into the `get_tile_topic` f-string. -/
structure TileFields where
  level : Fin 3
  ns : Char
  slat : ℕ
  ew : Char
  slon : ℕ
deriving DecidableEq

/-- `get_tile_topic` up to string rendering: hemisphere letters, and the
absolute rounded center coordinates in hundredths of a degree, where the
center is the lower-left corner (coordinates floored to a multiple of the
edge size) shifted by half an edge. -/
def tileFields (lvl : Fin 3) (lat lon : ℚ) : TileFields :=
  { level := lvl
    ns := if lat < 0 then 'S' else 'N'
    ew := if lon < 0 then 'W' else 'E'
    slat := (pyRound ((⌊lat / tileDelta lvl⌋ * tileDelta lvl + tileDelta lvl / 2) * 100)).natAbs
    slon := (pyRound ((⌊lon / tileDelta lvl⌋ * tileDelta lvl + tileDelta lvl / 2) * 100)).natAbs }

/-- Zero-padded decimal rendering (`{n:04d}` / `{n:05d}`). -/
def padNum (w : ℕ) (n : ℕ) : String :=
  String.mk (List.replicate (w - (toString n).length) '0') ++ toString n

/-- Render the tile topic string
`pp/ip/L{level}{ns}{slat:04d}{ew}{slon:05d}/dict`. -/
def tileTopicOfFields (f : TileFields) : String :=
  "pp/ip/L" ++ toString (f.level : ℕ) ++ String.mk [f.ns] ++ padNum 4 f.slat
    ++ String.mk [f.ew] ++ padNum 5 f.slon ++ "/dict"

/-- `get_tile_topic(lat, lon)` of the source. -/
def get_tile_topic (lvl : Fin 3) (lat lon : ℚ) : String :=
  tileTopicOfFields (tileFields lvl lat lon)

/-- Tile-center latitude decoded back out of the formatted fields. -/
def tileCenterLat (f : TileFields) : ℚ :=
  (if f.ns = 'S' then -1 else 1) * (f.slat : ℚ) / 100

/-- Tile-center longitude decoded back out of the formatted fields. -/
def tileCenterLon (f : TileFields) : ℚ :=
  (if f.ew = 'W' then -1 else 1) * (f.slon : ℚ) / 100

theorem tileDelta_pos (lvl : Fin 3) : 0 < tileDelta lvl := by
  fin_cases lvl <;> norm_num [tileDelta, Fin.ext_iff]

theorem pyRound_intCast (m : ℤ) : pyRound (m : ℚ) = m := by
  norm_num [pyRound, Int.floor_intCast]

/-- The shifted tile center, scaled by 100, is an exact integer for each of
the three edge sizes. -/
theorem center_mul100_int (lvl : Fin 3) (k : ℤ) :
    ∃ m : ℤ, ((k : ℚ) * tileDelta lvl + tileDelta lvl / 2) * 100 = (m : ℚ) := by
  fin_cases lvl
  · refine ⟨k * 1000 + 500, ?_⟩
    norm_num [tileDelta, Fin.ext_iff]
    ring
  · refine ⟨k * 500 + 250, ?_⟩
    norm_num [tileDelta, Fin.ext_iff]
    ring
  · refine ⟨k * 250 + 125, ?_⟩
    norm_num [tileDelta, Fin.ext_iff]
    ring

/-- Flooring the tile center back onto the tile grid recovers the corner. -/
theorem center_floor_back (lvl : Fin 3) (k : ℤ) :
    ⌊((k : ℚ) * tileDelta lvl + tileDelta lvl / 2) / tileDelta lvl⌋ = k := by
  have hd : (0 : ℚ) < tileDelta lvl := tileDelta_pos lvl
  have hdiv : ((k : ℚ) * tileDelta lvl + tileDelta lvl / 2) / tileDelta lvl
      = 1 / 2 + (k : ℚ) := by
    field_simp
    ring
  rw [hdiv, Int.floor_add_int]
  norm_num

theorem center_pos (lvl : Fin 3) (x : ℚ) (h : 0 ≤ x) :
    0 < (⌊x / tileDelta lvl⌋ : ℚ) * tileDelta lvl + tileDelta lvl / 2 := by
  have hd : (0 : ℚ) < tileDelta lvl := tileDelta_pos lvl
  have hk : 0 ≤ ⌊x / tileDelta lvl⌋ := Int.floor_nonneg.mpr (by positivity)
  have hk' : (0 : ℚ) ≤ (⌊x / tileDelta lvl⌋ : ℚ) := by exact_mod_cast hk
  nlinarith

theorem center_neg (lvl : Fin 3) (x : ℚ) (h : x < 0) :
    (⌊x / tileDelta lvl⌋ : ℚ) * tileDelta lvl + tileDelta lvl / 2 < 0 := by
  have hd : (0 : ℚ) < tileDelta lvl := tileDelta_pos lvl
  have hk : ⌊x / tileDelta lvl⌋ < 0 := by
    rw [Int.floor_lt]
    push_cast
    exact div_neg_of_neg_of_pos h hd
  have hk2 : ⌊x / tileDelta lvl⌋ ≤ -1 := by omega
  have hk' : (⌊x / tileDelta lvl⌋ : ℚ) ≤ -1 := by exact_mod_cast hk2
  nlinarith

/-- Decoding the latitude center out of the formatted fields gives back the
exact tile center. -/
theorem tileCenterLat_eq (lvl : Fin 3) (lat lon : ℚ) :
    tileCenterLat (tileFields lvl lat lon)
      = (⌊lat / tileDelta lvl⌋ : ℚ) * tileDelta lvl + tileDelta lvl / 2 := by
  obtain ⟨m, hm⟩ := center_mul100_int lvl ⌊lat / tileDelta lvl⌋
  unfold tileCenterLat tileFields
  dsimp only
  rw [hm, pyRound_intCast]
  by_cases hlat : lat < 0
  · have hc : (⌊lat / tileDelta lvl⌋ : ℚ) * tileDelta lvl + tileDelta lvl / 2 < 0 :=
      center_neg lvl lat hlat
    have hmneg : m < 0 := by
      have : (m : ℚ) < 0 := by rw [← hm]; nlinarith
      exact_mod_cast this
    rw [if_pos hlat, if_pos rfl]
    have habs : ((m.natAbs : ℚ)) = -(m : ℚ) := by
      rw [Int.cast_natAbs, Int.cast_abs]
      exact abs_of_neg (by exact_mod_cast hmneg)
    rw [habs]
    linarith [hm.symm]
  · have hc : 0 < (⌊lat / tileDelta lvl⌋ : ℚ) * tileDelta lvl + tileDelta lvl / 2 :=
      center_pos lvl lat (not_lt.mp hlat)
    have hmpos : 0 ≤ m := by
      have : (0 : ℚ) ≤ (m : ℚ) := by rw [← hm]; nlinarith
      exact_mod_cast this
    rw [if_neg hlat, if_neg (by decide : ¬('N' : Char) = 'S')]
    have habs : ((m.natAbs : ℚ)) = (m : ℚ) := by
      rw [Int.cast_natAbs, Int.cast_abs]
      exact abs_of_nonneg (by exact_mod_cast hmpos)
    rw [habs]
    linarith [hm.symm]

/-- Decoding the longitude center out of the formatted fields gives back the
exact tile center. -/
theorem tileCenterLon_eq (lvl : Fin 3) (lat lon : ℚ) :
    tileCenterLon (tileFields lvl lat lon)
      = (⌊lon / tileDelta lvl⌋ : ℚ) * tileDelta lvl + tileDelta lvl / 2 := by
  obtain ⟨m, hm⟩ := center_mul100_int lvl ⌊lon / tileDelta lvl⌋
  unfold tileCenterLon tileFields
  dsimp only
  rw [hm, pyRound_intCast]
  by_cases hlon : lon < 0
  · have hc : (⌊lon / tileDelta lvl⌋ : ℚ) * tileDelta lvl + tileDelta lvl / 2 < 0 :=
      center_neg lvl lon hlon
    have hmneg : m < 0 := by
      have : (m : ℚ) < 0 := by rw [← hm]; nlinarith
      exact_mod_cast this
    rw [if_pos hlon, if_pos rfl]
    have habs : ((m.natAbs : ℚ)) = -(m : ℚ) := by
      rw [Int.cast_natAbs, Int.cast_abs]
      exact abs_of_neg (by exact_mod_cast hmneg)
    rw [habs]
    linarith [hm.symm]
  · have hc : 0 < (⌊lon / tileDelta lvl⌋ : ℚ) * tileDelta lvl + tileDelta lvl / 2 :=
      center_pos lvl lon (not_lt.mp hlon)
    have hmpos : 0 ≤ m := by
      have : (0 : ℚ) ≤ (m : ℚ) := by rw [← hm]; nlinarith
      exact_mod_cast this
    rw [if_neg hlon, if_neg (by decide : ¬('E' : Char) = 'W')]
    have habs : ((m.natAbs : ℚ)) = (m : ℚ) := by
      rw [Int.cast_natAbs, Int.cast_abs]
      exact abs_of_nonneg (by exact_mod_cast hmpos)
    rw [habs]
    linarith [hm.symm]

/-- C5: re-tiling the decoded tile center reproduces the tile fields, hence
the formatted topic string: for every position and every tile level in
{0, 1, 2} (edges 10.0, 5.0, 2.5 degrees), decoding the tile-center
coordinates back out of the formatted topic and formatting the topic of
that center yields the original topic. -/
theorem tile_topic_roundtrip (lvl : Fin 3) (lat lon : ℚ) :
    tileFields lvl (tileCenterLat (tileFields lvl lat lon))
        (tileCenterLon (tileFields lvl lat lon)) = tileFields lvl lat lon ∧
      get_tile_topic lvl (tileCenterLat (tileFields lvl lat lon))
        (tileCenterLon (tileFields lvl lat lon)) = get_tile_topic lvl lat lon := by
  have hlatc := tileCenterLat_eq lvl lat lon
  have hlonc := tileCenterLon_eq lvl lat lon
  have hfields : tileFields lvl (tileCenterLat (tileFields lvl lat lon))
      (tileCenterLon (tileFields lvl lat lon)) = tileFields lvl lat lon := by
    rw [hlatc, hlonc]
    unfold tileFields
    have hfl : ⌊((⌊lat / tileDelta lvl⌋ : ℚ) * tileDelta lvl + tileDelta lvl / 2)
        / tileDelta lvl⌋ = ⌊lat / tileDelta lvl⌋ := center_floor_back lvl _
    have hfo : ⌊((⌊lon / tileDelta lvl⌋ : ℚ) * tileDelta lvl + tileDelta lvl / 2)
        / tileDelta lvl⌋ = ⌊lon / tileDelta lvl⌋ := center_floor_back lvl _
    have hnsq : ((⌊lat / tileDelta lvl⌋ : ℚ) * tileDelta lvl + tileDelta lvl / 2 < 0)
        ↔ lat < 0 := by
      constructor
      · intro hc
        by_contra hl
        exact absurd (center_pos lvl lat (not_lt.mp hl)) (by linarith)
      · exact center_neg lvl lat
    have hewq : ((⌊lon / tileDelta lvl⌋ : ℚ) * tileDelta lvl + tileDelta lvl / 2 < 0)
        ↔ lon < 0 := by
      constructor
      · intro hc
        by_contra hl
        exact absurd (center_pos lvl lon (not_lt.mp hl)) (by linarith)
      · exact center_neg lvl lon
    rw [TileFields.mk.injEq]
    refine ⟨rfl, ?_, ?_, ?_, ?_⟩
    · by_cases h : lat < 0
      · rw [if_pos h, if_pos (hnsq.mpr h)]
      · rw [if_neg h, if_neg (fun hc => h (hnsq.mp hc))]
    · rw [hfl]
    · by_cases h : lon < 0
      · rw [if_pos h, if_pos (hewq.mpr h)]
      · rw [if_neg h, if_neg (fun hc => h (hewq.mp hc))]
    · rw [hfo]
  exact ⟨hfields, congrArg tileTopicOfFields hfields⟩


/-! ## Nearest-node selection (`select_node`, search loop) -/

/-- `str.maketrans('NSEW', '0-0-')` applied to one character. -/
def nsewTranslate (c : Char) : Char :=
  if c = 'N' then '0' else if c = 'S' then '-' else if c = 'E' then '0'
  else if c = 'W' then '-' else c

/-- `node_signed = node.translate(NSEW_TO_SIGN)`;
`node_lat = int(node_signed[0:5])`; `node_lon = int(node_signed[5:11])`.
`none` models a `ValueError` from `int()`. -/
def parseNodeCoords (node : String) : Option (Int × Int) :=
  match pyIntChars ((node.data.map nsewTranslate).take 5),
      pyIntChars (((node.data.map nsewTranslate).drop 5).take 6) with
  | some la, some lo => some (la, lo)
  | _, _ => none

/-- `dist_scaled = (node_lat-rounded_lat)**2 + ((node_lon-rounded_lon)*factor_lon)**2`. -/
def scoreNode (rlat rlon : Int) (factor_lon : ℚ) (node : String) : Option ℚ :=
  (parseNodeCoords node).map (fun p =>
    ((p.1 - rlat : Int) : ℚ) ^ 2 + (((p.2 - rlon : Int) : ℚ) * factor_lon) ^ 2)

/-- The minimum-search loop of `select_node`: the accumulator holds the best
(score, node) seen so far (`none` = nothing bound yet, `min_dist_scaled`
still infinite); a node replaces it only on a STRICTLY smaller score.  The
outer `none` models a `ValueError` while parsing a node id. -/
def nearestLoop (rlat rlon : Int) (factor_lon : ℚ) :
    List String → Option (ℚ × String) → Option (Option (ℚ × String))
  | [], acc => some acc
  | n :: rest, acc =>
    match scoreNode rlat rlon factor_lon n with
    | none => none
    | some d =>
      match acc with
      | none => nearestLoop rlat rlon factor_lon rest (some (d, n))
      | some (m, b) =>
        if d < m then nearestLoop rlat rlon factor_lon rest (some (d, n))
        else nearestLoop rlat rlon factor_lon rest (some (m, b))

/-- Accumulator invariant of the search loop: the final best is either the
incoming accumulator (and then no listed node strictly improves on it), or
the EARLIEST listed node achieving a strictly better score (all earlier
nodes score strictly higher, all later ones no lower). -/
theorem nearestLoop_acc (rlat rlon : Int) (c : ℚ) (nodes : List String) :
    ∀ m b d n, nearestLoop rlat rlon c nodes (some (m, b)) = some (some (d, n)) →
      (d = m ∧ n = b ∧ ∀ x ∈ nodes, ∃ s, scoreNode rlat rlon c x = some s ∧ m ≤ s) ∨
      (∃ l1 l2, nodes = l1 ++ n :: l2 ∧ scoreNode rlat rlon c n = some d ∧ d < m ∧
        (∀ x ∈ l1, ∃ s, scoreNode rlat rlon c x = some s ∧ d < s) ∧
        (∀ x ∈ l2, ∃ s, scoreNode rlat rlon c x = some s ∧ d ≤ s)) := by
  induction nodes with
  | nil =>
    intro m b d n h
    simp only [nearestLoop, Option.some.injEq, Prod.mk.injEq] at h
    exact Or.inl ⟨h.1.symm, h.2.symm, by simp⟩
  | cons x rest ih =>
    intro m b d n h
    simp only [nearestLoop] at h
    cases hs : scoreNode rlat rlon c x with
    | none => rw [hs] at h; simp at h
    | some dx =>
      rw [hs] at h
      dsimp only at h
      by_cases hlt : dx < m
      · rw [if_pos hlt] at h
        rcases ih dx x d n h with ⟨hd, hn, hall⟩ | ⟨l1, l2, hsplit, hsc, hless, hearl, hlate⟩
        · subst hd; subst hn
          refine Or.inr ⟨[], rest, by simp, hs, hlt, by simp, ?_⟩
          intro y hy
          exact hall y hy
        · refine Or.inr ⟨x :: l1, l2, by rw [hsplit, List.cons_append], hsc, lt_trans hless hlt, ?_, hlate⟩
          intro y hy
          rcases List.mem_cons.mp hy with hy | hy
          · exact hy ▸ ⟨dx, hs, hless⟩
          · exact hearl y hy
      · rw [if_neg hlt] at h
        rcases ih m b d n h with ⟨hd, hn, hall⟩ | ⟨l1, l2, hsplit, hsc, hless, hearl, hlate⟩
        · refine Or.inl ⟨hd, hn, ?_⟩
          intro y hy
          rcases List.mem_cons.mp hy with hy | hy
          · exact hy ▸ ⟨dx, hs, not_lt.mp hlt⟩
          · exact hall y hy
        · refine Or.inr ⟨x :: l1, l2, by rw [hsplit, List.cons_append], hsc, hless, ?_, hlate⟩
          intro y hy
          rcases List.mem_cons.mp hy with hy | hy
          · exact hy ▸ ⟨dx, hs, lt_of_lt_of_le hless (not_lt.mp hlt)⟩
          · exact hearl y hy

/-- From an empty accumulator, a successful search returns the earliest
node of strictly minimal score. -/
theorem nearestLoop_argmin (rlat rlon : Int) (c : ℚ) (nodes : List String)
    (d : ℚ) (n : String)
    (h : nearestLoop rlat rlon c nodes none = some (some (d, n))) :
    ∃ l1 l2, nodes = l1 ++ n :: l2 ∧ scoreNode rlat rlon c n = some d ∧
      (∀ x ∈ l1, ∃ s, scoreNode rlat rlon c x = some s ∧ d < s) ∧
      (∀ x ∈ l2, ∃ s, scoreNode rlat rlon c x = some s ∧ d ≤ s) := by
  cases nodes with
  | nil => simp [nearestLoop] at h
  | cons x rest =>
    simp only [nearestLoop] at h
    cases hs : scoreNode rlat rlon c x with
    | none => rw [hs] at h; simp at h
    | some dx =>
      rw [hs] at h
      dsimp only at h
      rcases nearestLoop_acc rlat rlon c rest dx x d n h with
        ⟨hd, hn, hall⟩ | ⟨l1, l2, hsplit, hsc, hless, hearl, hlate⟩
      · subst hd; subst hn
        exact ⟨[], rest, by simp, hs, by simp, hall⟩
      · refine ⟨x :: l1, l2, by rw [hsplit, List.cons_append], hsc, ?_, hlate⟩
        intro y hy
        rcases List.mem_cons.mp hy with hy | hy
        · exact hy ▸ ⟨dx, hs, hless⟩
        · exact hearl y hy


/-! ## Subscription and session controller (`PointPerfectClient`) -/

/-- A parsed tile dictionary.  The field `nodepfx` models the JSON key
`nodeprefix` of the tile metadata payload. -/
structure TileDict where
  nodes : List String
  nodepfx : String
  endpoint : String
deriving DecidableEq

/-- Role of a subscription, identified by the subscribe call site in the
source: tile-dictionary topics (`process_position`), correction/SPARTN
topics (`select_node` / `on_mqtt_connect`), AssistNow topics, and the fixed
key-distribution topics (`self.mqtt_topics`). -/
inductive SubRole
  | tile
  | spartn
  | assist
  | keydist
deriving DecidableEq

/-- MQTT client calls issued by the controller, in program order. -/
inductive Action
  | subscribe (role : SubRole) (topic : String) (qos : Nat)
  | unsubscribe (topic : String)
  | disconnect
  | connect (server : String)
deriving DecidableEq

/-- The mutable state of `PointPerfectClient`.  `epochs = none` models the
default `float('inf')`; `dlat_threshold` abstracts
`distance * 360 / EARTH_CIRCUMFERENCE` (irrational in the source). -/
structure ClientState where
  localized : Bool
  tile_level : Fin 3
  plan : String
  assist_now : Bool
  epochs : Option ℚ
  mqtt_topics : List (String × Nat)
  lat : ℚ
  lon : ℚ
  epoch_count : Nat
  dlat_threshold : ℚ
  dlon_threshold : ℚ
  tile_dict : Option TileDict
  tile_topic : String
  spartn_topic : String
  assist_now_topic : Option String
  connected : Bool
  new_server : Option String
  mqtt_server : String
deriving DecidableEq

/-- The `REGION_MAPPING` table of the source, in insertion order. -/
def REGION_MAPPING : List (String × String) :=
  [("S2655E13470", "au"), ("N5245E01185", "eu"), ("N3895E13960", "jp"),
    ("N3310E13220", "jp"), ("N3630E12820", "kr"), ("N3920W09660", "us")]

/-- `REGION_MAPPING[nearest_node]`; `none` models a `KeyError`. -/
def regionLookup (k : String) : Option String :=
  (REGION_MAPPING.find? (fun p => decide (p.1 = k))).map Prod.snd

/-- `select_node`, parameterized by `cosF`, the model of
`lat ↦ cos(radians(lat))`.  `none` models an uncaught exception
(`ValueError` from node parsing, `UnboundLocalError` when the node set is
empty so `nearest_node` is never bound, `KeyError` from the region table). -/
def select_node (cosF : ℚ → ℚ) (s : ClientState) : Option (ClientState × List Action) :=
  match s.tile_dict with
  | none => some (s, [])
  | some td =>
    match nearestLoop (pyRound (s.lat * 100)) (pyRound (s.lon * 100)) (cosF s.lat)
        td.nodes none with
    | none => none
    | some none => none
    | some (some (_, nearest)) =>
      match (if s.localized then some nearest else regionLookup nearest) with
      | none => none
      | some nn =>
        if s.mqtt_server ≠ td.endpoint then
          some ({ s with new_server := some td.endpoint,
                         spartn_topic := td.nodepfx ++ nn }, [Action.disconnect])
        else
          some ({ s with spartn_topic := td.nodepfx ++ nn },
            (if s.spartn_topic ≠ "" then [Action.unsubscribe s.spartn_topic] else [])
              ++ [Action.subscribe SubRole.spartn (td.nodepfx ++ nn) 0])

/-- `self.epoch_count > self.epochs` (false when `epochs` is infinite). -/
def epochsExceeded (epochs : Option ℚ) (count : Nat) : Bool :=
  match epochs with
  | none => false
  | some e => decide ((count : ℚ) > e)

/-- The tile-switch part of `process_position` after a position update:
subscribe the new tile topic (unsubscribing the old one first) when it
changed, otherwise re-run node selection directly. -/
def select_tile (cosF : ℚ → ℚ) (s2 : ClientState) : Option (ClientState × List Action) :=
  if get_tile_topic s2.tile_level s2.lat s2.lon ≠ s2.tile_topic then
    some ({ s2 with tile_topic := get_tile_topic s2.tile_level s2.lat s2.lon },
      (if s2.tile_topic ≠ "" then [Action.unsubscribe s2.tile_topic] else [])
        ++ [Action.subscribe SubRole.tile (get_tile_topic s2.tile_level s2.lat s2.lon) 1])
  else select_node cosF s2

/-- `process_position`, faithful to the source: in localized mode bump the
epoch counter and recompute only on significant movement or epoch overflow;
on recompute, store the position, reset the counter, rescale the longitude
threshold at the new latitude, then switch tile or re-select the node; in
region mode run node selection once against the synthetic region
dictionary, only while no correction topic has been chosen yet. -/
def process_position (cosF : ℚ → ℚ) (s : ClientState) (lat lon : ℚ) :
    Option (ClientState × List Action) :=
  if s.localized then
    if |lat - s.lat| > s.dlat_threshold ∨ |lon - s.lon| > s.dlon_threshold ∨
        epochsExceeded s.epochs (s.epoch_count + 1) = true then
      select_tile cosF
        { s with lat := lat, lon := lon, epoch_count := 0,
                 dlon_threshold := s.dlat_threshold * cosF lat }
    else some ({ s with epoch_count := s.epoch_count + 1 }, [])
  else
    if s.spartn_topic = "" then
      select_node cosF
        { s with lat := lat, lon := lon,
                 tile_dict := some { nodes := REGION_MAPPING.map Prod.fst,
                                     nodepfx := "/pp/" ++ s.plan ++ "/",
                                     endpoint := s.mqtt_server } }
    else some (s, [])

/-- The fix-handling part of `handle_nmea_gga` after field extraction:
quality 0 or 6 subscribes the initial AssistNow topic when absent and does
not process the position; any other quality first unsubscribes and clears an
active AssistNow topic (unless AssistNow is forced) and then processes the
position. -/
def handle_gga (cosF : ℚ → ℚ) (s : ClientState) (quality : Int) (lat lon : ℚ) :
    Option (ClientState × List Action) :=
  if quality = 0 ∨ quality = 6 then
    match s.assist_now_topic with
    | none => some ({ s with assist_now_topic := some "/pp/ubx/mga" },
        [Action.subscribe SubRole.assist "/pp/ubx/mga" 1])
    | some _ => some (s, [])
  else
    match s.assist_now_topic with
    | some t =>
      if s.assist_now then process_position cosF s lat lon
      else
        (process_position cosF { s with assist_now_topic := none } lat lon).map
          (fun r => (r.1, Action.unsubscribe t :: r.2))
    | none => process_position cosF s lat lon

/-- QoS chosen for an AssistNow topic on reconnect:
`0 if topic.endswith('/updates') else 1`. -/
def assistQos (t : String) : Nat :=
  if ("/updates".data).isSuffixOf t.data then 0 else 1

/-- Resubscription of an optional AssistNow topic on reconnect. -/
def assistResubActs (o : Option String) : List Action :=
  match o with
  | some t => [Action.subscribe SubRole.assist t (assistQos t)]
  | none => []

/-- `on_mqtt_connect`: on success mark connected and (re)subscribe the fixed
key topics, the current correction topic if any, and the current AssistNow
topic if any. -/
def on_mqtt_connect (s : ClientState) (return_code : Int) : ClientState × List Action :=
  if return_code = 0 then
    ({ s with connected := true },
      s.mqtt_topics.map (fun tq => Action.subscribe SubRole.keydist tq.1 tq.2)
        ++ (if s.spartn_topic ≠ "" then [Action.subscribe SubRole.spartn s.spartn_topic 0]
            else [])
        ++ assistResubActs s.assist_now_topic)
  else (s, [])

/-- `on_mqtt_disconnect`: mark disconnected; if a migration target is
pending, clear it, adopt it as the active server, and reconnect. -/
def on_mqtt_disconnect (s : ClientState) : ClientState × List Action :=
  match s.new_server with
  | some srv => ({ s with connected := false, mqtt_server := srv, new_server := none },
      [Action.connect srv])
  | none => ({ s with connected := false }, [])

/-- `process_tile_data` on a successfully parsed payload: replace the cached
tile dictionary and re-run node selection. -/
def process_tile_data (cosF : ℚ → ℚ) (s : ClientState) (td : TileDict) :
    Option (ClientState × List Action) :=
  select_node cosF { s with tile_dict := some td }

/-- Events delivered to the controller (serialized, as the claims quantify
over sequences of processed events). -/
inductive Event
  | fix (quality : Int) (lat lon : ℚ)
  | tileData (td : TileDict)
  | mqttConnect (return_code : Int)
  | mqttDisconnect

/-- One controller transition. -/
def step_client (cosF : ℚ → ℚ) (s : ClientState) : Event → Option (ClientState × List Action)
  | Event.fix q lat lon => handle_gga cosF s q lat lon
  | Event.tileData td => process_tile_data cosF s td
  | Event.mqttConnect rc => some (on_mqtt_connect s rc)
  | Event.mqttDisconnect => some (on_mqtt_disconnect s)

/-- Effect of one MQTT call on the set of live subscriptions (role, topic):
subscribing is idempotent per topic, unsubscribing removes the topic, a
disconnect drops the whole session's subscriptions, connecting adds none. -/
def apply_action (subs : List (SubRole × String)) : Action → List (SubRole × String)
  | Action.subscribe r t _ =>
    if subs.any (fun e => decide (e.2 = t)) then subs else subs ++ [(r, t)]
  | Action.unsubscribe t => subs.filter (fun e => decide (¬e.2 = t))
  | Action.disconnect => []
  | Action.connect _ => subs

/-- Apply a program-ordered list of MQTT calls. -/
def apply_actions (subs : List (SubRole × String)) (acts : List Action) :
    List (SubRole × String) :=
  acts.foldl apply_action subs

/-- One transition of controller plus subscription environment; the
disconnect-complete event also drops the session's subscriptions. -/
def step_world (cosF : ℚ → ℚ) (w : ClientState × List (SubRole × String)) (e : Event) :
    Option (ClientState × List (SubRole × String)) :=
  match step_client cosF w.1 e with
  | none => none
  | some (s2, acts) =>
    some (s2, apply_actions (match e with | Event.mqttDisconnect => [] | _ => w.2) acts)

/-- Run a sequence of events. -/
def run_events (cosF : ℚ → ℚ) (w : ClientState × List (SubRole × String))
    (evs : List Event) : Option (ClientState × List (SubRole × String)) :=
  evs.foldlM (step_world cosF) w

/-- Constructor parameters of `PointPerfectClient` relevant to the claims. -/
structure InitParams where
  mqtt_server : String
  localized : Bool
  tile_level : Fin 3
  lband : Bool
  region : Option String
  dlat_threshold : ℚ
  epochs : Option ℚ
  assist_now : Bool

/-- `PointPerfectClient.__init__`, state part. -/
def init_client (p : InitParams) : ClientState :=
  { localized := p.localized
    tile_level := p.tile_level
    plan := if p.lband then "Lb" else "ip"
    assist_now := p.assist_now
    epochs := p.epochs
    mqtt_topics :=
      if p.localized then []
      else [("/pp/ubx/0236/" ++ (if p.lband then "Lb" else "ip"), 1)]
    lat := 0
    lon := 0
    epoch_count := 0
    dlat_threshold := p.dlat_threshold
    dlon_threshold := 0
    tile_dict := none
    tile_topic := ""
    spartn_topic :=
      if p.localized then ""
      else
        match p.region with
        | some r => "/pp/" ++ (if p.lband then "Lb" else "ip") ++ "/" ++ r
        | none => ""
    assist_now_topic := if p.assist_now then some "/pp/ubx/mga" else none
    connected := false
    new_server := none
    mqtt_server := p.mqtt_server }


/-! ## Case analysis of `select_node` and string helpers -/

theorem str_append_ne_empty_right (a b : String) (hb : b ≠ "") : a ++ b ≠ "" := by
  intro h
  apply hb
  have hd := congrArg String.data h
  rw [String.data_append] at hd
  have hb' : b.data = [] := List.append_eq_nil.mp hd |>.2
  cases b with
  | mk l => cases hb' ; rfl

theorem str_append_ne_empty_left (a b : String) (ha : a ≠ "") : a ++ b ≠ "" := by
  intro h
  apply ha
  have hd := congrArg String.data h
  rw [String.data_append] at hd
  have ha' : a.data = [] := List.append_eq_nil.mp hd |>.1
  cases a with
  | mk l => cases ha' ; rfl

/-- A node id whose coordinates parse is a non-empty string. -/
theorem parseNodeCoords_ne_empty (node : String) (h : (parseNodeCoords node).isSome) :
    node ≠ "" := by
  intro hcon
  subst hcon
  simp [parseNodeCoords, pyIntChars, decNat] at h

/-- Every region name in the table is non-empty. -/
theorem regionLookup_ne_empty (k v : String) (h : regionLookup k = some v) : v ≠ "" := by
  unfold regionLookup at h
  cases hf : REGION_MAPPING.find? (fun p => decide (p.1 = k)) with
  | none => rw [hf] at h; cases h
  | some p =>
    rw [hf] at h
    have hmem : p ∈ REGION_MAPPING := List.mem_of_find?_eq_some hf
    have hall : ∀ q ∈ REGION_MAPPING, q.2 ≠ "" := by decide
    have := hall p hmem
    simp only [Option.map_some', Option.some.injEq] at h
    exact h ▸ this

/-- Exhaustive description of a successful `select_node`: either there is no
tile dictionary yet (no action), or the dictionary's endpoint differs from
the current server (record pending server and new correction topic, emit
exactly one disconnect), or it matches (unsubscribe the old correction topic
if any, subscribe the new one).  In either selecting case the chosen topic
suffix is a non-empty string. -/
theorem select_node_cases (cosF : ℚ → ℚ) (s s' : ClientState) (acts : List Action)
    (h : select_node cosF s = some (s', acts)) :
    (s.tile_dict = none ∧ s' = s ∧ acts = []) ∨
    (∃ td nn, s.tile_dict = some td ∧ nn ≠ "" ∧
      ((s.mqtt_server ≠ td.endpoint ∧
        s' = { s with new_server := some td.endpoint, spartn_topic := td.nodepfx ++ nn } ∧
        acts = [Action.disconnect]) ∨
      (s.mqtt_server = td.endpoint ∧
        s' = { s with spartn_topic := td.nodepfx ++ nn } ∧
        acts = (if s.spartn_topic ≠ "" then [Action.unsubscribe s.spartn_topic] else [])
          ++ [Action.subscribe SubRole.spartn (td.nodepfx ++ nn) 0]))) := by
  unfold select_node at h
  cases htd : s.tile_dict with
  | none =>
    rw [htd] at h
    simp only [Option.some.injEq, Prod.mk.injEq] at h
    exact Or.inl ⟨rfl, h.1.symm, h.2.symm⟩
  | some td =>
    rw [htd] at h
    dsimp only at h
    cases hloop : nearestLoop (pyRound (s.lat * 100)) (pyRound (s.lon * 100)) (cosF s.lat)
        td.nodes none with
    | none => rw [hloop] at h; cases h
    | some o =>
      rw [hloop] at h
      cases o with
      | none => simp at h
      | some p =>
        obtain ⟨d, nearest⟩ := p
        dsimp only at h
        cases hnn : (if s.localized then some nearest else regionLookup nearest) with
        | none => rw [hnn] at h; cases h
        | some nn =>
          rw [hnn] at h
          dsimp only at h
          have hnne : nn ≠ "" := by
            by_cases hloc : s.localized
            · rw [if_pos hloc] at hnn
              have hid := Option.some.inj hnn
              subst hid
              obtain ⟨l1, l2, hsplit, hsc, _, _⟩ :=
                nearestLoop_argmin _ _ _ _ _ _ hloop
              apply parseNodeCoords_ne_empty
              unfold scoreNode at hsc
              cases hp : parseNodeCoords nearest with
              | none => rw [hp] at hsc; simp at hsc
              | some q2 => simp [hp]
            · rw [if_neg hloc] at hnn
              exact regionLookup_ne_empty nearest nn hnn
          refine Or.inr ⟨td, nn, rfl, hnne, ?_⟩
          by_cases hsrv : s.mqtt_server ≠ td.endpoint
          · rw [if_pos hsrv] at h
            simp only [Option.some.injEq, Prod.mk.injEq] at h
            exact Or.inl ⟨hsrv, h.1.symm, h.2.symm⟩
          · rw [if_neg hsrv] at h
            simp only [Option.some.injEq, Prod.mk.injEq] at h
            exact Or.inr ⟨not_not.mp hsrv, h.1.symm, h.2.symm⟩


/-! ## Claims about node selection and the session state machine -/

/-- A successful search over a node list with all scores defined. -/
theorem nearestLoop_total (rlat rlon : Int) (c : ℚ) (nodes : List String)
    (hall : ∀ x ∈ nodes, (scoreNode rlat rlon c x).isSome) :
    ∀ m b, ∃ p, nearestLoop rlat rlon c nodes (some (m, b)) = some (some p) := by
  induction nodes with
  | nil => exact fun m b => ⟨(m, b), rfl⟩
  | cons x rest ih =>
    intro m b
    have hx := hall x (by simp)
    cases hs : scoreNode rlat rlon c x with
    | none => rw [hs] at hx; simp at hx
    | some d =>
      simp only [nearestLoop, hs]
      by_cases hlt : d < m
      · rw [if_pos hlt]
        exact ih (fun y hy => hall y (by simp [hy])) d x
      · rw [if_neg hlt]
        exact ih (fun y hy => hall y (by simp [hy])) m b

/-- On a non-empty node list with all scores defined the loop binds a
nearest node. -/
theorem nearestLoop_nonempty_some (rlat rlon : Int) (c : ℚ) (nodes : List String)
    (hne : nodes ≠ []) (hall : ∀ x ∈ nodes, (scoreNode rlat rlon c x).isSome) :
    ∃ p, nearestLoop rlat rlon c nodes none = some (some p) := by
  cases nodes with
  | nil => exact absurd rfl hne
  | cons x rest =>
    have hx := hall x (by simp)
    cases hs : scoreNode rlat rlon c x with
    | none => rw [hs] at hx; simp at hx
    | some d =>
      simp only [nearestLoop, hs]
      exact nearestLoop_total rlat rlon c rest (fun y hy => hall y (by simp [hy])) d x

/-- C6: node selection returns the earliest node of strictly smallest score
`(node_lat - round(lat*100))^2 + ((node_lon - round(lon*100)) * cos_factor)^2`
(being a Lean function, the search is deterministic for a fixed iteration
order).  Conjunct 1: a successful search result is the earliest strict
minimum (all earlier nodes score strictly higher, later ones no lower).
Conjunct 2: for the rounded query (48.0, 11.0) the worked node set selects
`N4807E01131`, for EVERY value of the cosine factor.  Conjunct 3: the query
(48.0, 11.0) rounds to exactly (4800, 1100). -/
theorem nearest_node_min :
    (∀ (rlat rlon : Int) (c : ℚ) (nodes : List String) (d : ℚ) (n : String),
      nearestLoop rlat rlon c nodes none = some (some (d, n)) →
      ∃ l1 l2, nodes = l1 ++ n :: l2 ∧ scoreNode rlat rlon c n = some d ∧
        (∀ x ∈ l1, ∃ s, scoreNode rlat rlon c x = some s ∧ d < s) ∧
        (∀ x ∈ l2, ∃ s, scoreNode rlat rlon c x = some s ∧ d ≤ s)) ∧
    (∀ c : ℚ, nearestLoop 4800 1100 c ["N4807E01131", "N3920W09660"] none =
      some (some (49 + 961 * c ^ 2, "N4807E01131"))) ∧
    (pyRound ((48 : ℚ) * 100) = 4800 ∧ pyRound ((11 : ℚ) * 100) = 1100) := by
  refine ⟨nearestLoop_argmin, ?_, by norm_num [pyRound], by norm_num [pyRound]⟩
  intro c
  have hp1 : parseNodeCoords "N4807E01131" = some (4807, 1131) := by decide
  have hp2 : parseNodeCoords "N3920W09660" = some (3920, -9660) := by decide
  have hs1 : scoreNode 4800 1100 c "N4807E01131" = some (49 + 961 * c ^ 2) := by
    rw [scoreNode, hp1, Option.map_some']
    congr 1
    push_cast
    ring
  have hs2 : scoreNode 4800 1100 c "N3920W09660" = some (774400 + 115777600 * c ^ 2) := by
    rw [scoreNode, hp2, Option.map_some']
    congr 1
    push_cast
    ring
  simp only [nearestLoop, hs1, hs2]
  rw [if_neg (not_lt.mpr (by nlinarith [sq_nonneg c]))]

/-- Witness for C6: the worked example instantiates the general argmin
characterization at cosine factor 1. -/
theorem nearest_node_min_witness :
    nearestLoop 4800 1100 1 ["N4807E01131", "N3920W09660"] none =
      some (some (49 + 961 * 1 ^ 2, "N4807E01131")) ∧
    ∃ l1 l2, ["N4807E01131", "N3920W09660"] = l1 ++ "N4807E01131" :: l2 ∧
      scoreNode 4800 1100 1 "N4807E01131" = some (49 + 961 * 1 ^ 2) ∧
      (∀ x ∈ l1, ∃ s, scoreNode 4800 1100 1 x = some s ∧ 49 + 961 * 1 ^ 2 < s) ∧
      (∀ x ∈ l2, ∃ s, scoreNode 4800 1100 1 x = some s ∧ 49 + 961 * 1 ^ 2 ≤ s) :=
  ⟨nearest_node_min.2.1 1,
    nearest_node_min.1 4800 1100 1 _ _ _ (nearest_node_min.2.1 1)⟩

/-- C10: `select_node` silently requires a non-empty node collection.
Conjunct 1: with a tile dictionary whose node collection is empty, the
minimum-score loop never binds a nearest node and `select_node` fails with
an uncaught error (`UnboundLocalError` on `nearest_node`, modelled `none`).
Conjunct 2: with at least one node (all of them well-formed ids, localized
mode), that error branch is unreachable and `select_node` completes. -/
theorem select_node_empty_nodes :
    (∀ (cosF : ℚ → ℚ) (s : ClientState) (td : TileDict), s.tile_dict = some td →
      td.nodes = [] → select_node cosF s = none) ∧
    (∀ (cosF : ℚ → ℚ) (s : ClientState) (td : TileDict), s.tile_dict = some td →
      td.nodes ≠ [] → (∀ x ∈ td.nodes, (parseNodeCoords x).isSome) →
      s.localized = true → (select_node cosF s).isSome) := by
  constructor
  · intro cosF s td htd hnodes
    unfold select_node
    rw [htd]
    dsimp only
    rw [hnodes]
    rfl
  · intro cosF s td htd hnodes hall hloc
    unfold select_node
    rw [htd]
    dsimp only
    have hallsc : ∀ x ∈ td.nodes,
        (scoreNode (pyRound (s.lat * 100)) (pyRound (s.lon * 100)) (cosF s.lat) x).isSome := by
      intro x hx
      have := hall x hx
      unfold scoreNode
      cases hp : parseNodeCoords x with
      | none => rw [hp] at this; simp at this
      | some p => simp
    obtain ⟨⟨d, n⟩, hp⟩ := nearestLoop_nonempty_some _ _ _ _ hnodes hallsc
    rw [hp]
    dsimp only
    rw [if_pos hloc]
    dsimp only
    by_cases hsrv : s.mqtt_server ≠ td.endpoint
    · rw [if_pos hsrv]
      rfl
    · rw [if_neg hsrv]
      rfl

/-- Witness for C10: a localized client with an empty-node dictionary
errors; one with a single well-formed node completes. -/
theorem select_node_empty_nodes_witness :
    select_node (fun _ => 1)
      { init_client ⟨"srv", true, 0, false, none, 0, none, false⟩ with
        tile_dict := some ⟨[], "pfx0", "srv"⟩ } = none ∧
    (select_node (fun _ => 1)
      { init_client ⟨"srv", true, 0, false, none, 0, none, false⟩ with
        tile_dict := some ⟨["N4807E01131"], "pfx0", "srv"⟩ }).isSome :=
  ⟨select_node_empty_nodes.1 _ _ ⟨[], "pfx0", "srv"⟩ rfl rfl,
    select_node_empty_nodes.2 _ _ ⟨["N4807E01131"], "pfx0", "srv"⟩ rfl
      (by decide) (by decide) rfl⟩

/-- C3: endpoint changes and only endpoint changes trigger migration.
Conjunct 1: when the selected dictionary's endpoint equals the current
server, `select_node` never issues a disconnect.  Conjunct 2: when it
differs, the pending server and the new correction topic are recorded and
the action trace is exactly one disconnect (no subscribe).  Conjunct 3: on
the disconnect-complete event with a pending server, the pending marker is
cleared, the active server becomes the pending one, and a connect is
initiated. -/
theorem endpoint_migration :
    (∀ (cosF : ℚ → ℚ) (s : ClientState) (td : TileDict) (s' : ClientState)
        (acts : List Action), s.tile_dict = some td → s.mqtt_server = td.endpoint →
      select_node cosF s = some (s', acts) → Action.disconnect ∉ acts) ∧
    (∀ (cosF : ℚ → ℚ) (s : ClientState) (td : TileDict) (s' : ClientState)
        (acts : List Action), s.tile_dict = some td → s.mqtt_server ≠ td.endpoint →
      select_node cosF s = some (s', acts) →
      s'.new_server = some td.endpoint ∧ (∃ nn, nn ≠ "" ∧
        s'.spartn_topic = td.nodepfx ++ nn) ∧ acts = [Action.disconnect]) ∧
    (∀ (s : ClientState) (srv : String), s.new_server = some srv →
      (on_mqtt_disconnect s).1.new_server = none ∧
      (on_mqtt_disconnect s).1.mqtt_server = srv ∧
      (on_mqtt_disconnect s).2 = [Action.connect srv]) := by
  refine ⟨?_, ?_, ?_⟩
  · intro cosF s td s' acts htd hsrv h
    rcases select_node_cases cosF s s' acts h with ⟨hn, _, _⟩ |
      ⟨td', nn, htd', hnne, ⟨hne, _, _⟩ | ⟨_, _, hacts⟩⟩
    · rw [htd] at hn; cases hn
    · rw [htd] at htd'
      cases Option.some.inj htd'
      exact absurd hsrv hne
    · subst hacts
      intro hmem
      rcases List.mem_append.mp hmem with hm | hm
      · by_cases hsp : s.spartn_topic ≠ ""
        · rw [if_pos hsp] at hm
          simp at hm
        · rw [if_neg hsp] at hm
          simp at hm
      · simp at hm
  · intro cosF s td s' acts htd hsrv h
    rcases select_node_cases cosF s s' acts h with ⟨hn, _, _⟩ |
      ⟨td', nn, htd', hnne, ⟨_, hs', hacts⟩ | ⟨heq, _, _⟩⟩
    · rw [htd] at hn; cases hn
    · rw [htd] at htd'
      cases Option.some.inj htd'
      subst hs'
      exact ⟨rfl, ⟨nn, hnne, rfl⟩, hacts⟩
    · rw [htd] at htd'
      cases Option.some.inj htd'
      exact absurd heq hsrv
  · intro s srv hsrv
    unfold on_mqtt_disconnect
    rw [hsrv]
    exact ⟨rfl, rfl, rfl⟩

/-- Witness for C3: a pending migration target is adopted on
disconnect-complete. -/
theorem endpoint_migration_witness :
    (on_mqtt_disconnect { init_client ⟨"srv", true, 0, false, none, 0, none, false⟩ with
        new_server := some "srv2" }).1.new_server = none ∧
    (on_mqtt_disconnect { init_client ⟨"srv", true, 0, false, none, 0, none, false⟩ with
        new_server := some "srv2" }).1.mqtt_server = "srv2" ∧
    (on_mqtt_disconnect { init_client ⟨"srv", true, 0, false, none, 0, none, false⟩ with
        new_server := some "srv2" }).2 = [Action.connect "srv2"] :=
  endpoint_migration.2.2 _ "srv2" rfl


/-- `select_node` never issues an AssistNow subscribe. -/
theorem select_node_no_assist (cosF : ℚ → ℚ) (s s' : ClientState) (acts : List Action)
    (h : select_node cosF s = some (s', acts)) (t : String) (q : Nat) :
    Action.subscribe SubRole.assist t q ∉ acts := by
  rcases select_node_cases cosF s s' acts h with ⟨_, _, hacts⟩ |
    ⟨td, nn, _, _, ⟨_, _, hacts⟩ | ⟨_, _, hacts⟩⟩
  · subst hacts; simp
  · subst hacts; simp
  · subst hacts
    intro hmem
    rcases List.mem_append.mp hmem with hm | hm
    · by_cases hsp : s.spartn_topic ≠ ""
      · rw [if_pos hsp] at hm; simp at hm
      · rw [if_neg hsp] at hm; simp at hm
    · simp at hm

/-- `process_position` never issues an AssistNow subscribe. -/
theorem process_position_no_assist (cosF : ℚ → ℚ) (s : ClientState) (lat lon : ℚ)
    (s' : ClientState) (acts : List Action)
    (h : process_position cosF s lat lon = some (s', acts)) (t : String) (q : Nat) :
    Action.subscribe SubRole.assist t q ∉ acts := by
  unfold process_position at h
  by_cases hloc : s.localized = true
  · rw [if_pos hloc] at h
    by_cases hsig : |lat - s.lat| > s.dlat_threshold ∨ |lon - s.lon| > s.dlon_threshold ∨
        epochsExceeded s.epochs (s.epoch_count + 1) = true
    · rw [if_pos hsig] at h
      unfold select_tile at h
      set s2 : ClientState :=
        { s with lat := lat, lon := lon, epoch_count := 0,
                 dlon_threshold := s.dlat_threshold * cosF lat } with hs2
      by_cases htile : get_tile_topic s2.tile_level s2.lat s2.lon ≠ s2.tile_topic
      · rw [if_pos htile] at h
        simp only [Option.some.injEq, Prod.mk.injEq] at h
        rw [← h.2]
        intro hmem
        rcases List.mem_append.mp hmem with hm | hm
        · by_cases hsp : s2.tile_topic ≠ ""
          · rw [if_pos hsp] at hm; simp at hm
          · rw [if_neg hsp] at hm; simp at hm
        · simp at hm
      · rw [if_neg htile] at h
        exact select_node_no_assist cosF s2 s' acts h t q
    · rw [if_neg hsig] at h
      simp only [Option.some.injEq, Prod.mk.injEq] at h
      rw [← h.2]
      simp
  · rw [if_neg hloc] at h
    by_cases hsp : s.spartn_topic = ""
    · rw [if_pos hsp] at h
      exact select_node_no_assist cosF _ s' acts h t q
    · rw [if_neg hsp] at h
      simp only [Option.some.injEq, Prod.mk.injEq] at h
      rw [← h.2]
      simp

/-- C4: quality codes 0 and 6, and only those, drive the AssistNow topic.
Conjunct 1: on quality 0 or 6 with no active initialization topic, the
client subscribes the initial topic at QoS 1 and records it (the position
fields are untouched by the record update).  Conjunct 2: on quality 0 or 6
with an active topic, nothing happens.  Conjunct 3: on quality 0 or 6 the
tracked position is never updated.  Conjunct 4: on any other quality with an
active topic and AssistNow not forced, the topic is unsubscribed and cleared
and then the position is processed.  Conjunct 5: on any other quality with
no active topic (or AssistNow forced), the position is processed directly.
Conjunct 6 ("only those"): on any other quality the emitted actions never
include an AssistNow subscribe. -/
theorem assist_topic_gate :
    (∀ (cosF : ℚ → ℚ) (s : ClientState) (q : Int) (lat lon : ℚ),
      (q = 0 ∨ q = 6) → s.assist_now_topic = none →
      handle_gga cosF s q lat lon =
        some ({ s with assist_now_topic := some "/pp/ubx/mga" },
          [Action.subscribe SubRole.assist "/pp/ubx/mga" 1])) ∧
    (∀ (cosF : ℚ → ℚ) (s : ClientState) (q : Int) (lat lon : ℚ) (t : String),
      (q = 0 ∨ q = 6) → s.assist_now_topic = some t →
      handle_gga cosF s q lat lon = some (s, [])) ∧
    (∀ (cosF : ℚ → ℚ) (s : ClientState) (q : Int) (lat lon : ℚ) (s' : ClientState)
        (acts : List Action), (q = 0 ∨ q = 6) →
      handle_gga cosF s q lat lon = some (s', acts) →
      s'.lat = s.lat ∧ s'.lon = s.lon) ∧
    (∀ (cosF : ℚ → ℚ) (s : ClientState) (q : Int) (lat lon : ℚ) (t : String),
      ¬(q = 0 ∨ q = 6) → s.assist_now_topic = some t → s.assist_now = false →
      handle_gga cosF s q lat lon =
        (process_position cosF { s with assist_now_topic := none } lat lon).map
          (fun r => (r.1, Action.unsubscribe t :: r.2))) ∧
    (∀ (cosF : ℚ → ℚ) (s : ClientState) (q : Int) (lat lon : ℚ),
      ¬(q = 0 ∨ q = 6) → (s.assist_now_topic = none ∨ s.assist_now = true) →
      handle_gga cosF s q lat lon = process_position cosF s lat lon) ∧
    (∀ (cosF : ℚ → ℚ) (s : ClientState) (q : Int) (lat lon : ℚ) (s' : ClientState)
        (acts : List Action) (t : String) (qos : Nat), ¬(q = 0 ∨ q = 6) →
      handle_gga cosF s q lat lon = some (s', acts) →
      Action.subscribe SubRole.assist t qos ∉ acts) := by
  refine ⟨?_, ?_, ?_, ?_, ?_, ?_⟩
  · intro cosF s q lat lon hq htopic
    unfold handle_gga
    rw [if_pos hq, htopic]
  · intro cosF s q lat lon t hq htopic
    unfold handle_gga
    rw [if_pos hq, htopic]
  · intro cosF s q lat lon s' acts hq h
    unfold handle_gga at h
    rw [if_pos hq] at h
    cases htopic : s.assist_now_topic with
    | none =>
      rw [htopic] at h
      simp only [Option.some.injEq, Prod.mk.injEq] at h
      rw [← h.1]
      exact ⟨rfl, rfl⟩
    | some t =>
      rw [htopic] at h
      simp only [Option.some.injEq, Prod.mk.injEq] at h
      rw [← h.1]
      exact ⟨rfl, rfl⟩
  · intro cosF s q lat lon t hq htopic hforce
    unfold handle_gga
    rw [if_neg hq, htopic]
    dsimp only
    rw [if_neg (by simp [hforce])]
  · intro cosF s q lat lon hq hcase
    unfold handle_gga
    rw [if_neg hq]
    rcases hcase with htopic | hforce
    · rw [htopic]
    · cases htopic : s.assist_now_topic with
      | none => rfl
      | some t =>
        dsimp only
        rw [if_pos hforce]
  · intro cosF s q lat lon s' acts t qos hq h
    unfold handle_gga at h
    rw [if_neg hq] at h
    cases htopic : s.assist_now_topic with
    | none =>
      rw [htopic] at h
      exact process_position_no_assist cosF s lat lon s' acts h t qos
    | some t0 =>
      rw [htopic] at h
      dsimp only at h
      by_cases hforce : s.assist_now = true
      · rw [if_pos hforce] at h
        exact process_position_no_assist cosF s lat lon s' acts h t qos
      · rw [if_neg hforce] at h
        cases hpp : process_position cosF { s with assist_now_topic := none } lat lon with
        | none => rw [hpp] at h; cases h
        | some r =>
          rw [hpp] at h
          simp only [Option.map_some', Option.some.injEq, Prod.mk.injEq] at h
          rw [← h.2]
          intro hmem
          rcases List.mem_cons.mp hmem with hm | hm
          · cases hm
          · exact process_position_no_assist cosF _ lat lon r.1 r.2
              (by rw [hpp]) t qos hm

/-- Witness for C4: a no-fix report (quality 0) on a fresh region-mode
client subscribes the initial AssistNow topic. -/
theorem assist_topic_gate_witness :
    handle_gga (fun _ => 1) (init_client ⟨"srv", false, 0, false, none, 0, none, false⟩)
        0 48 11 =
      some ({ init_client ⟨"srv", false, 0, false, none, 0, none, false⟩ with
          assist_now_topic := some "/pp/ubx/mga" },
        [Action.subscribe SubRole.assist "/pp/ubx/mga" 1]) :=
  assist_topic_gate.1 _ _ 0 48 11 (Or.inl rfl) rfl


/-! ## C2: at most one tile and one correction subscription -/

/-- Topics of the live subscription entries. -/
def topicsOf (subs : List (SubRole × String)) : List String := subs.map Prod.snd

/-- Number of live subscriptions with a given role. -/
def roleCount (subs : List (SubRole × String)) (r : SubRole) : Nat :=
  (subs.filter (fun e => decide (e.1 = r))).length

/-- Inductive invariant tying the live subscription set to the controller
state: live topics are pairwise distinct and non-empty; a live tile (resp.
correction) subscription carries exactly the currently recorded tile (resp.
correction) topic; and the configured topics that `on_mqtt_connect`
re-issues are non-empty. -/
structure SubsInv (s : ClientState) (subs : List (SubRole × String)) : Prop where
  nodup : (topicsOf subs).Nodup
  topics_ne : ∀ e ∈ subs, e.2 ≠ ""
  tile_eq : ∀ e ∈ subs, e.1 = SubRole.tile → e.2 = s.tile_topic
  spartn_eq : ∀ e ∈ subs, e.1 = SubRole.spartn → e.2 = s.spartn_topic
  mqtt_ne : ∀ tq ∈ s.mqtt_topics, tq.1 ≠ ""
  assist_ne : ∀ t, s.assist_now_topic = some t → t ≠ ""

/-- Distinct topics plus a single admissible topic per role bound the number
of live subscriptions of that role by one. -/
theorem roleCount_le_one (subs : List (SubRole × String)) (r : SubRole) (T : String)
    (hnd : (topicsOf subs).Nodup) (hr : ∀ e ∈ subs, e.1 = r → e.2 = T) :
    roleCount subs r ≤ 1 := by
  induction subs with
  | nil => simp [roleCount]
  | cons e rest ih =>
    have hcons := List.nodup_cons.mp (show (e.2 :: topicsOf rest).Nodup from hnd)
    by_cases hrole : e.1 = r
    · have hT := hr e (by simp) hrole
      have hnone : ∀ e' ∈ rest, ¬e'.1 = r := by
        intro e' he' hr'
        have hT' := hr e' (by simp [he']) hr'
        have hmem : e'.2 ∈ topicsOf rest := List.mem_map_of_mem Prod.snd he'
        rw [hT', ← hT] at hmem
        exact hcons.1 hmem
      have hzero : (rest.filter (fun e => decide (e.1 = r))).length = 0 := by
        rw [List.length_eq_zero, List.filter_eq_nil_iff]
        intro a ha
        simp [hnone a ha]
      simp [roleCount, List.filter_cons, hrole, hzero]
    · have htail := ih hcons.2 (fun e' he' => hr e' (by simp [he']))
      simpa [roleCount, List.filter_cons, hrole] using htail

/-- Applying any MQTT call keeps the live topics pairwise distinct. -/
theorem nodup_apply_action (subs : List (SubRole × String)) (a : Action)
    (h : (topicsOf subs).Nodup) : (topicsOf (apply_action subs a)).Nodup := by
  cases a with
  | subscribe r t q =>
    simp only [apply_action]
    by_cases hany : subs.any (fun e => decide (e.2 = t)) = true
    · rw [if_pos hany]; exact h
    · rw [if_neg hany]
      have ht : t ∉ topicsOf subs := by
        intro hmem
        apply hany
        rw [List.any_eq_true]
        obtain ⟨e, he, het⟩ := List.mem_map.mp hmem
        exact ⟨e, he, by simp [het]⟩
      have hmap : topicsOf (subs ++ [(r, t)]) = topicsOf subs ++ [t] := by
        simp [topicsOf]
      rw [hmap]
      have hperm : (topicsOf subs ++ [t]).Perm (t :: topicsOf subs) :=
        List.perm_append_singleton t _
      exact hperm.nodup_iff.mpr (List.nodup_cons.mpr ⟨ht, h⟩)
  | unsubscribe t =>
    simp only [apply_action]
    exact List.Nodup.sublist (List.Sublist.map Prod.snd (List.filter_sublist subs)) h
  | disconnect => simp [apply_action, topicsOf]
  | connect srv => exact h

/-- Membership after a subscribe: an old entry or the new pair. -/
theorem mem_apply_sub {subs : List (SubRole × String)} {r : SubRole} {t : String} {q : Nat}
    {e : SubRole × String} (h : e ∈ apply_action subs (Action.subscribe r t q)) :
    e ∈ subs ∨ e = (r, t) := by
  simp only [apply_action] at h
  by_cases hany : subs.any (fun e => decide (e.2 = t)) = true
  · rw [if_pos hany] at h; exact Or.inl h
  · rw [if_neg hany] at h
    rcases List.mem_append.mp h with hm | hm
    · exact Or.inl hm
    · exact Or.inr (List.mem_singleton.mp hm)

/-- Membership after an unsubscribe: an old entry whose topic differs. -/
theorem mem_apply_unsub {subs : List (SubRole × String)} {t : String}
    {e : SubRole × String} (h : e ∈ apply_action subs (Action.unsubscribe t)) :
    e ∈ subs ∧ e.2 ≠ t := by
  simp only [apply_action] at h
  have hm := List.mem_filter.mp h
  refine ⟨hm.1, ?_⟩
  have := hm.2
  simpa using this

/-- The invariant only looks at four fields of the controller state. -/
theorem SubsInv_congr {s s' : ClientState} {subs : List (SubRole × String)}
    (h : SubsInv s subs) (ht : s'.tile_topic = s.tile_topic)
    (hsp : s'.spartn_topic = s.spartn_topic) (hm : s'.mqtt_topics = s.mqtt_topics)
    (ha : s'.assist_now_topic = s.assist_now_topic) : SubsInv s' subs := by
  refine ⟨h.nodup, h.topics_ne, ?_, ?_, ?_, ?_⟩
  · intro e he hr
    rw [ht]
    exact h.tile_eq e he hr
  · intro e he hr
    rw [hsp]
    exact h.spartn_eq e he hr
  · rw [hm]
    exact h.mqtt_ne
  · intro t htop
    exact h.assist_ne t (ha ▸ htop)

/-- The rendered tile topic is never the empty string. -/
theorem get_tile_topic_ne_empty (lvl : Fin 3) (lat lon : ℚ) :
    get_tile_topic lvl lat lon ≠ "" := by
  unfold get_tile_topic tileTopicOfFields
  exact str_append_ne_empty_right _ _ (by decide)


/-- `apply_actions` distributes over action-list concatenation. -/
theorem apply_actions_append (subs : List (SubRole × String)) (a b : List Action) :
    apply_actions subs (a ++ b) = apply_actions (apply_actions subs a) b :=
  List.foldl_append _ _ _ _

/-- Removing a subscription can never break the invariant. -/
theorem SubsInv_unsub (s' : ClientState) (subs : List (SubRole × String))
    (hInv : SubsInv s' subs) (t : String) :
    SubsInv s' (apply_action subs (Action.unsubscribe t)) := by
  refine ⟨nodup_apply_action _ _ hInv.nodup, ?_, ?_, ?_, hInv.mqtt_ne, hInv.assist_ne⟩
  · intro e he
    exact hInv.topics_ne e (mem_apply_unsub he).1
  · intro e he hr
    exact hInv.tile_eq e (mem_apply_unsub he).1 hr
  · intro e he hr
    exact hInv.spartn_eq e (mem_apply_unsub he).1 hr

/-- Subscribing a non-empty topic that agrees with the state's record for
its role preserves the invariant. -/
theorem SubsInv_subscribe (s' : ClientState) (subs : List (SubRole × String))
    (hInv : SubsInv s' subs) (r : SubRole) (t : String) (q : Nat) (ht : t ≠ "")
    (hrt : r = SubRole.tile → t = s'.tile_topic)
    (hrs : r = SubRole.spartn → t = s'.spartn_topic) :
    SubsInv s' (apply_action subs (Action.subscribe r t q)) := by
  refine ⟨nodup_apply_action _ _ hInv.nodup, ?_, ?_, ?_, hInv.mqtt_ne, hInv.assist_ne⟩
  · intro e he
    rcases mem_apply_sub he with hm | hm
    · exact hInv.topics_ne e hm
    · rw [hm]; exact ht
  · intro e he hr
    rcases mem_apply_sub he with hm | hm
    · exact hInv.tile_eq e hm hr
    · rw [hm] at hr ⊢
      exact hrt hr
  · intro e he hr
    rcases mem_apply_sub he with hm | hm
    · exact hInv.spartn_eq e hm hr
    · rw [hm] at hr ⊢
      exact hrs hr

/-- After unsubscribing the recorded correction topic (or when none was
recorded), no live correction subscription remains, so the invariant holds
against a state with a NEW correction topic. -/
theorem SubsInv_spartn_cleared (s s2 : ClientState) (subs : List (SubRole × String))
    (hInv : SubsInv s subs)
    (h2 : s2.tile_topic = s.tile_topic) (h3 : s2.mqtt_topics = s.mqtt_topics)
    (h4 : s2.assist_now_topic = s.assist_now_topic) :
    SubsInv s2 (apply_actions subs
      (if s.spartn_topic ≠ "" then [Action.unsubscribe s.spartn_topic] else [])) := by
  by_cases hsp : s.spartn_topic ≠ ""
  · rw [if_pos hsp]
    show SubsInv s2 (apply_action subs (Action.unsubscribe s.spartn_topic))
    refine ⟨nodup_apply_action _ _ hInv.nodup, ?_, ?_, ?_, h3 ▸ hInv.mqtt_ne, ?_⟩
    · intro e he
      exact hInv.topics_ne e (mem_apply_unsub he).1
    · intro e he hr
      rw [h2]
      exact hInv.tile_eq e (mem_apply_unsub he).1 hr
    · intro e he hr
      obtain ⟨hm, hne⟩ := mem_apply_unsub he
      exact absurd (hInv.spartn_eq e hm hr) hne
    · intro t htop
      exact hInv.assist_ne t (h4 ▸ htop)
  · rw [if_neg hsp]
    show SubsInv s2 subs
    refine ⟨hInv.nodup, hInv.topics_ne, ?_, ?_, h3 ▸ hInv.mqtt_ne, ?_⟩
    · intro e he hr
      rw [h2]
      exact hInv.tile_eq e he hr
    · intro e he hr
      have := hInv.spartn_eq e he hr
      rw [not_not.mp hsp] at this
      exact absurd this (hInv.topics_ne e he)
    · intro t htop
      exact hInv.assist_ne t (h4 ▸ htop)

/-- Same for the tile topic. -/
theorem SubsInv_tile_cleared (s s2 : ClientState) (subs : List (SubRole × String))
    (hInv : SubsInv s subs)
    (h2 : s2.spartn_topic = s.spartn_topic) (h3 : s2.mqtt_topics = s.mqtt_topics)
    (h4 : s2.assist_now_topic = s.assist_now_topic) :
    SubsInv s2 (apply_actions subs
      (if s.tile_topic ≠ "" then [Action.unsubscribe s.tile_topic] else [])) := by
  by_cases hsp : s.tile_topic ≠ ""
  · rw [if_pos hsp]
    show SubsInv s2 (apply_action subs (Action.unsubscribe s.tile_topic))
    refine ⟨nodup_apply_action _ _ hInv.nodup, ?_, ?_, ?_, h3 ▸ hInv.mqtt_ne, ?_⟩
    · intro e he
      exact hInv.topics_ne e (mem_apply_unsub he).1
    · intro e he hr
      obtain ⟨hm, hne⟩ := mem_apply_unsub he
      exact absurd (hInv.tile_eq e hm hr) hne
    · intro e he hr
      rw [h2]
      exact hInv.spartn_eq e (mem_apply_unsub he).1 hr
    · intro t htop
      exact hInv.assist_ne t (h4 ▸ htop)
  · rw [if_neg hsp]
    show SubsInv s2 subs
    refine ⟨hInv.nodup, hInv.topics_ne, ?_, ?_, h3 ▸ hInv.mqtt_ne, ?_⟩
    · intro e he hr
      have := hInv.tile_eq e he hr
      rw [not_not.mp hsp] at this
      exact absurd this (hInv.topics_ne e he)
    · intro e he hr
      rw [h2]
      exact hInv.spartn_eq e he hr
    · intro t htop
      exact hInv.assist_ne t (h4 ▸ htop)

/-- `select_node` preserves the invariant. -/
theorem SubsInv_select_node (cosF : ℚ → ℚ) (s s' : ClientState) (acts : List Action)
    (subs : List (SubRole × String)) (hInv : SubsInv s subs)
    (h : select_node cosF s = some (s', acts)) : SubsInv s' (apply_actions subs acts) := by
  rcases select_node_cases cosF s s' acts h with ⟨_, hs', hacts⟩ |
    ⟨td, nn, htd, hnne, ⟨_, hs', hacts⟩ | ⟨_, hs', hacts⟩⟩
  · subst hs'; subst hacts; exact hInv
  · subst hs'
    subst hacts
    show SubsInv _ []
    refine ⟨by simp [topicsOf], by simp, by simp, by simp, ?_, ?_⟩
    · exact hInv.mqtt_ne
    · intro t htop
      exact hInv.assist_ne t htop
  · subst hs'
    subst hacts
    rw [apply_actions_append]
    show SubsInv _ (apply_action _ (Action.subscribe SubRole.spartn (td.nodepfx ++ nn) 0))
    have hmid := SubsInv_spartn_cleared s
      { s with spartn_topic := td.nodepfx ++ nn } subs hInv rfl rfl rfl
    exact SubsInv_subscribe _ _ hmid SubRole.spartn (td.nodepfx ++ nn) 0
      (str_append_ne_empty_right _ _ hnne) (fun hc => by cases hc) (fun _ => rfl)

/-- `select_tile` (the tile-switch part of `process_position`) preserves the
invariant. -/
theorem SubsInv_select_tile (cosF : ℚ → ℚ) (s2 s' : ClientState) (acts : List Action)
    (subs : List (SubRole × String)) (hInv : SubsInv s2 subs)
    (h : select_tile cosF s2 = some (s', acts)) : SubsInv s' (apply_actions subs acts) := by
  unfold select_tile at h
  by_cases htile : get_tile_topic s2.tile_level s2.lat s2.lon ≠ s2.tile_topic
  · rw [if_pos htile] at h
    simp only [Option.some.injEq, Prod.mk.injEq] at h
    obtain ⟨hs', hacts⟩ := h
    subst hs'
    subst hacts
    rw [apply_actions_append]
    show SubsInv _ (apply_action _
      (Action.subscribe SubRole.tile (get_tile_topic s2.tile_level s2.lat s2.lon) 1))
    have hmid := SubsInv_tile_cleared s2
      { s2 with tile_topic := get_tile_topic s2.tile_level s2.lat s2.lon } subs hInv rfl rfl rfl
    exact SubsInv_subscribe _ _ hmid SubRole.tile _ 1
      (get_tile_topic_ne_empty _ _ _) (fun _ => rfl) (fun hc => by cases hc)
  · rw [if_neg htile] at h
    exact SubsInv_select_node cosF s2 s' acts subs hInv h

/-- `process_position` preserves the invariant. -/
theorem SubsInv_process_position (cosF : ℚ → ℚ) (s : ClientState) (lat lon : ℚ)
    (s' : ClientState) (acts : List Action) (subs : List (SubRole × String))
    (hInv : SubsInv s subs) (h : process_position cosF s lat lon = some (s', acts)) :
    SubsInv s' (apply_actions subs acts) := by
  unfold process_position at h
  by_cases hloc : s.localized = true
  · rw [if_pos hloc] at h
    by_cases hsig : |lat - s.lat| > s.dlat_threshold ∨ |lon - s.lon| > s.dlon_threshold ∨
        epochsExceeded s.epochs (s.epoch_count + 1) = true
    · rw [if_pos hsig] at h
      have hmid : SubsInv { s with lat := lat, lon := lon, epoch_count := 0, dlon_threshold := s.dlat_threshold * cosF lat } subs :=
        SubsInv_congr hInv rfl rfl rfl rfl
      exact SubsInv_select_tile cosF _ s' acts subs hmid h
    · rw [if_neg hsig] at h
      simp only [Option.some.injEq, Prod.mk.injEq] at h
      obtain ⟨hs', hacts⟩ := h
      subst hs'
      subst hacts
      exact SubsInv_congr hInv rfl rfl rfl rfl
  · rw [if_neg hloc] at h
    by_cases hsp : s.spartn_topic = ""
    · rw [if_pos hsp] at h
      have hmid : SubsInv { s with lat := lat, lon := lon, tile_dict := some { nodes := REGION_MAPPING.map Prod.fst, nodepfx := "/pp/" ++ s.plan ++ "/", endpoint := s.mqtt_server } } subs :=
        SubsInv_congr hInv rfl rfl rfl rfl
      exact SubsInv_select_node cosF _ s' acts subs hmid h
    · rw [if_neg hsp] at h
      simp only [Option.some.injEq, Prod.mk.injEq] at h
      obtain ⟨hs', hacts⟩ := h
      subst hs'
      subst hacts
      exact hInv

/-- `handle_gga` preserves the invariant. -/
theorem SubsInv_handle_gga (cosF : ℚ → ℚ) (s : ClientState) (q : Int) (lat lon : ℚ)
    (s' : ClientState) (acts : List Action) (subs : List (SubRole × String))
    (hInv : SubsInv s subs) (h : handle_gga cosF s q lat lon = some (s', acts)) :
    SubsInv s' (apply_actions subs acts) := by
  unfold handle_gga at h
  by_cases hq : q = 0 ∨ q = 6
  · rw [if_pos hq] at h
    cases htop : s.assist_now_topic with
    | none =>
      rw [htop] at h
      simp only [Option.some.injEq, Prod.mk.injEq] at h
      obtain ⟨hs', hacts⟩ := h
      subst hs'
      subst hacts
      show SubsInv _ (apply_action subs (Action.subscribe SubRole.assist "/pp/ubx/mga" 1))
      have hmid : SubsInv { s with assist_now_topic := some "/pp/ubx/mga" } subs := by
        refine ⟨hInv.nodup, hInv.topics_ne, hInv.tile_eq, hInv.spartn_eq, hInv.mqtt_ne, ?_⟩
        intro t htop2
        cases Option.some.inj htop2
        decide
      exact SubsInv_subscribe _ _ hmid SubRole.assist _ 1 (by decide)
        (fun hc => by cases hc) (fun hc => by cases hc)
    | some t =>
      rw [htop] at h
      simp only [Option.some.injEq, Prod.mk.injEq] at h
      obtain ⟨hs', hacts⟩ := h
      subst hs'
      subst hacts
      exact hInv
  · rw [if_neg hq] at h
    cases htop : s.assist_now_topic with
    | none =>
      rw [htop] at h
      exact SubsInv_process_position cosF s lat lon s' acts subs hInv h
    | some t =>
      rw [htop] at h
      dsimp only at h
      by_cases hforce : s.assist_now = true
      · rw [if_pos hforce] at h
        exact SubsInv_process_position cosF s lat lon s' acts subs hInv h
      · rw [if_neg hforce] at h
        cases hpp : process_position cosF { s with assist_now_topic := none } lat lon with
        | none => rw [hpp] at h; cases h
        | some r =>
          rw [hpp] at h
          simp only [Option.map_some', Option.some.injEq, Prod.mk.injEq] at h
          obtain ⟨hs', hacts⟩ := h
          subst hs'
          subst hacts
          show SubsInv r.1 (apply_actions (apply_action subs (Action.unsubscribe t)) r.2)
          have hmid : SubsInv { s with assist_now_topic := none }
              (apply_action subs (Action.unsubscribe t)) := by
            have h1 := SubsInv_unsub s subs hInv t
            refine ⟨h1.nodup, h1.topics_ne, h1.tile_eq, h1.spartn_eq, h1.mqtt_ne, ?_⟩
            intro t2 htop2
            cases htop2
          exact SubsInv_process_position cosF _ lat lon r.1 r.2 _ hmid (by rw [hpp])

/-- Applying the fixed key-distribution subscriptions preserves the
invariant. -/
theorem SubsInv_keydist_list (s' : ClientState) (l : List (String × Nat))
    (hl : ∀ tq ∈ l, tq.1 ≠ "") :
    ∀ subs, SubsInv s' subs →
      SubsInv s' (apply_actions subs
        (l.map (fun tq => Action.subscribe SubRole.keydist tq.1 tq.2))) := by
  induction l with
  | nil => exact fun subs hInv => hInv
  | cons tq rest ih =>
    intro subs hInv
    show SubsInv s' (apply_actions
      (apply_action subs (Action.subscribe SubRole.keydist tq.1 tq.2))
      (rest.map (fun tq => Action.subscribe SubRole.keydist tq.1 tq.2)))
    exact ih (fun tq2 h2 => hl tq2 (by simp [h2]))
      _ (SubsInv_subscribe s' subs hInv SubRole.keydist tq.1 tq.2 (hl tq (by simp))
        (fun hc => by cases hc) (fun hc => by cases hc))

/-- Re-subscribing an optional AssistNow topic preserves the invariant. -/
theorem SubsInv_assist_resub (s' : ClientState) (subs : List (SubRole × String))
    (hInv : SubsInv s' subs) (o : Option String) (ho : ∀ t, o = some t → t ≠ "") :
    SubsInv s' (apply_actions subs (assistResubActs o)) := by
  unfold assistResubActs
  cases o with
  | none => exact hInv
  | some t =>
    show SubsInv s' (apply_action subs (Action.subscribe SubRole.assist t (assistQos t)))
    exact SubsInv_subscribe s' subs hInv SubRole.assist t (assistQos t) (ho t rfl)
      (fun hc => by cases hc) (fun hc => by cases hc)

/-- `on_mqtt_connect` preserves the invariant. -/
theorem SubsInv_on_connect (s : ClientState) (rc : Int) (subs : List (SubRole × String))
    (hInv : SubsInv s subs) :
    SubsInv (on_mqtt_connect s rc).1 (apply_actions subs (on_mqtt_connect s rc).2) := by
  unfold on_mqtt_connect
  by_cases hrc : rc = 0
  · rw [if_pos hrc]
    dsimp only
    rw [apply_actions_append, apply_actions_append]
    have hInv1 : SubsInv { s with connected := true } subs :=
      SubsInv_congr hInv rfl rfl rfl rfl
    have hInv2 := SubsInv_keydist_list { s with connected := true }
      s.mqtt_topics hInv.mqtt_ne subs hInv1
    have hInv3 : SubsInv { s with connected := true }
        (apply_actions
          (apply_actions subs
            (s.mqtt_topics.map (fun tq => Action.subscribe SubRole.keydist tq.1 tq.2)))
          (if s.spartn_topic ≠ "" then
            [Action.subscribe SubRole.spartn s.spartn_topic 0] else [])) := by
      by_cases hsp : s.spartn_topic ≠ ""
      · rw [if_pos hsp]
        exact SubsInv_subscribe _ _ hInv2 SubRole.spartn s.spartn_topic 0 hsp
          (fun hc => by cases hc) (fun _ => rfl)
      · rw [if_neg hsp]
        exact hInv2
    exact SubsInv_assist_resub _ _ hInv3 s.assist_now_topic hInv.assist_ne
  · rw [if_neg hrc]
    exact hInv

/-- `on_mqtt_disconnect` starting from the dropped session preserves the
invariant. -/
theorem SubsInv_on_disconnect (s : ClientState) (subs : List (SubRole × String))
    (hInv : SubsInv s subs) :
    SubsInv (on_mqtt_disconnect s).1 (apply_actions [] (on_mqtt_disconnect s).2) := by
  unfold on_mqtt_disconnect
  cases hsrv : s.new_server with
  | some srv =>
    refine ⟨by simp [topicsOf, apply_actions, apply_action], by simp [apply_actions, apply_action],
      by simp [apply_actions, apply_action], by simp [apply_actions, apply_action], ?_, ?_⟩
    · exact hInv.mqtt_ne
    · intro t htop
      exact hInv.assist_ne t htop
  | none =>
    refine ⟨by simp [topicsOf, apply_actions], by simp [apply_actions],
      by simp [apply_actions], by simp [apply_actions], ?_, ?_⟩
    · exact hInv.mqtt_ne
    · intro t htop
      exact hInv.assist_ne t htop

/-- One world step preserves the invariant. -/
theorem SubsInv_step (cosF : ℚ → ℚ) (w w' : ClientState × List (SubRole × String))
    (e : Event) (hInv : SubsInv w.1 w.2) (h : step_world cosF w e = some w') :
    SubsInv w'.1 w'.2 := by
  unfold step_world at h
  cases e with
  | fix q lat lon =>
    cases hst : handle_gga cosF w.1 q lat lon with
    | none => rw [show step_client cosF w.1 (Event.fix q lat lon) =
        handle_gga cosF w.1 q lat lon from rfl, hst] at h; cases h
    | some p =>
      rw [show step_client cosF w.1 (Event.fix q lat lon) =
        handle_gga cosF w.1 q lat lon from rfl, hst] at h
      dsimp only at h
      cases Option.some.inj h
      exact SubsInv_handle_gga cosF w.1 q lat lon p.1 p.2 w.2 hInv hst
  | tileData td =>
    cases hst : select_node cosF { w.1 with tile_dict := some td } with
    | none => rw [show step_client cosF w.1 (Event.tileData td) =
        select_node cosF { w.1 with tile_dict := some td } from rfl, hst] at h; cases h
    | some p =>
      rw [show step_client cosF w.1 (Event.tileData td) =
        select_node cosF { w.1 with tile_dict := some td } from rfl, hst] at h
      dsimp only at h
      cases Option.some.inj h
      have hmid : SubsInv { w.1 with tile_dict := some td } w.2 :=
        SubsInv_congr hInv rfl rfl rfl rfl
      exact SubsInv_select_node cosF _ p.1 p.2 w.2 hmid hst
  | mqttConnect rc =>
    dsimp only [step_client] at h
    cases Option.some.inj h
    exact SubsInv_on_connect w.1 rc w.2 hInv
  | mqttDisconnect =>
    dsimp only [step_client] at h
    cases Option.some.inj h
    exact SubsInv_on_disconnect w.1 w.2 hInv

/-- Any successful run preserves the invariant. -/
theorem SubsInv_run (cosF : ℚ → ℚ) (evs : List Event) :
    ∀ w w', SubsInv w.1 w.2 → run_events cosF w evs = some w' → SubsInv w'.1 w'.2 := by
  induction evs with
  | nil =>
    intro w w' hInv h
    cases Option.some.inj h
    exact hInv
  | cons e rest ih =>
    intro w w' hInv h
    unfold run_events at h
    rw [List.foldlM_cons] at h
    cases hst : step_world cosF w e with
    | none => rw [hst] at h; cases h
    | some w1 =>
      rw [hst] at h
      exact ih w1 w' (SubsInv_step cosF w w1 e hInv hst) h

/-- A freshly constructed client with no live subscriptions satisfies the
invariant. -/
theorem init_SubsInv (p : InitParams) : SubsInv (init_client p) [] := by
  refine ⟨by simp [topicsOf], by simp, by simp, by simp, ?_, ?_⟩
  · intro tq htq
    unfold init_client at htq
    dsimp only at htq
    by_cases hloc : p.localized = true
    · rw [if_pos hloc] at htq
      simp at htq
    · rw [if_neg hloc] at htq
      simp only [List.mem_singleton] at htq
      subst htq
      exact str_append_ne_empty_left _ _ (by decide)
  · intro t htop
    unfold init_client at htop
    dsimp only at htop
    by_cases hassist : p.assist_now = true
    · rw [if_pos hassist] at htop
      cases Option.some.inj htop
      decide
    · rw [if_neg hassist] at htop
      cases htop

/-- C2: across any sequence of events processed by the controller, the live
subscription set never holds more than one tile subscription nor more than
one correction-data (SPARTN) subscription; switching first unsubscribes the
old topic, and during a server migration the old subscription is dropped by
the disconnect itself (both mechanisms are what the inductive invariant
`SubsInv` tracks). -/
theorem single_subscription_invariant (cosF : ℚ → ℚ) (p : InitParams) (evs : List Event)
    (w' : ClientState × List (SubRole × String))
    (h : run_events cosF (init_client p, []) evs = some w') :
    roleCount w'.2 SubRole.tile ≤ 1 ∧ roleCount w'.2 SubRole.spartn ≤ 1 := by
  have hInv := SubsInv_run cosF evs (init_client p, []) w' (init_SubsInv p) h
  exact ⟨roleCount_le_one w'.2 SubRole.tile w'.1.tile_topic hInv.nodup hInv.tile_eq,
    roleCount_le_one w'.2 SubRole.spartn w'.1.spartn_topic hInv.nodup hInv.spartn_eq⟩


/-- Witness for C2: a fresh region-mode client that connects successfully
ends with exactly one key-distribution and one correction subscription. -/
theorem single_subscription_invariant_witness :
    roleCount [(SubRole.keydist, "/pp/ubx/0236/ip"), (SubRole.spartn, "/pp/ip/eu")]
        SubRole.tile ≤ 1 ∧
      roleCount [(SubRole.keydist, "/pp/ubx/0236/ip"), (SubRole.spartn, "/pp/ip/eu")]
        SubRole.spartn ≤ 1 :=
  single_subscription_invariant (fun _ => 1)
    ⟨"srv", false, 0, false, some "eu", 0, none, false⟩ [Event.mqttConnect 0]
    ({ init_client ⟨"srv", false, 0, false, some "eu", 0, none, false⟩ with connected := true },
      [(SubRole.keydist, "/pp/ubx/0236/ip"), (SubRole.spartn, "/pp/ip/eu")])
    (by rfl)


end PP
